import Mathlib

/-!
Shallow embedding of the movie-challenge core: the progress cursor
(src/js/sliding-window.js) and the state codec (the StorageManager code
embedded in src/README.md, functions exportCompressed, exportLegacy,
importCompressed, decodeBitArray).  JS Sets are modelled as Finset Nat,
JS arrays as List, JS numbers as Nat (all ids, indices and byte values in
the source are nonnegative integers in the ranges where JS integer
semantics and Nat semantics agree).
-/

/-- An item of the catalog.  The source only ever reads the configured id
field (config.data.idField, "id") on catalog items, so the other fields
(title, year, poster) are irrelevant to the core and omitted. -/
structure Item where
  id : Nat
  deriving DecidableEq, Repr, Inhabited

/-- The kind of a recorded rating action, the `action` string field of a
history entry ("seen" or "notSeen"). -/
inductive ActionKind where
  | seen
  | notSeen
  deriving DecidableEq, Repr

/-- One history entry `\x7b id, action \x7d` as pushed by markSeen and
markNotSeen in src/js/sliding-window.js. -/
structure RatingAction where
  id : Nat
  action : ActionKind
  deriving DecidableEq, Repr

/-- The serializable progress state: shape shared by the saved state
consumed by SlidingWindow.init and the states produced by the codec
(currentIndex, seen, notSeen, history). -/
structure ProgressState where
  currentIndex : Nat
  seen : List Nat
  notSeen : List Nat
  history : List RatingAction
  deriving DecidableEq, Repr

/-- The configuration values the cursor loads in loadConfig:
config.ui.windowSize, config.ui.preloadAhead, config.storage.maxHistorySize. -/
structure Config where
  windowSize : Nat
  preloadAhead : Nat
  maxHistorySize : Nat
  deriving DecidableEq, Repr

/-- The shipped configuration (src/config/challenge.config.js): windowSize 5,
preloadAhead 3, maxHistorySize 100; these coincide with the defaults in
src/js/core/config-loader.js and the initial values in sliding-window.js. -/
def defaultConfig : Config :=
  { windowSize := 5, preloadAhead := 3, maxHistorySize := 100 }

namespace SlidingWindow

/-- The module state of the SlidingWindow IIFE: configuration values,
the item list, the raw position pointer and the rating sets and history. -/
structure Cursor where
  windowSize : Nat
  preloadAhead : Nat
  historyMax : Nat
  items : List Item
  currentIndex : Nat
  seenSet : Finset Nat
  notSeenSet : Finset Nat
  history : List RatingAction
  deriving DecidableEq

/-- isRated: membership in either rating set. -/
def isRated (c : Cursor) (id : Nat) : Prop :=
  id ∈ c.seenSet ∨ id ∈ c.notSeenSet

instance (c : Cursor) (id : Nat) : Decidable (isRated c id) := by
  unfold isRated; infer_instance

/-- The while loop shared by init and advanceToNext: starting at index
`idx` whose suffix of items is `l`, advance the index while the item at it
is already rated.  Structural on the remaining suffix. -/
def advanceFrom (c : Cursor) : List Item → Nat → Nat
  | [], idx => idx
  | item :: rest, idx =>
      if isRated c item.id then advanceFrom c rest (idx + 1) else idx

/-- The scan loop of getCurrentItem: first unrated item at or after `idx`
(whose suffix is `l`), together with its index, or none. -/
def scanFrom (c : Cursor) : List Item → Nat → Option (Item × Nat)
  | [], _ => none
  | item :: rest, idx =>
      if isRated c item.id then scanFrom c rest (idx + 1) else some (item, idx)

/-- getCurrentItem: scan forward from currentIndex for the first unrated
item; the source returns the item spread together with its index. -/
def getCurrentItem (c : Cursor) : Option (Item × Nat) :=
  scanFrom c (c.items.drop c.currentIndex) c.currentIndex

/-- The collection loop of getWindow: up to `need` unrated items in order
starting at index `idx` (suffix `l`); rated items are skipped and do not
count toward the bound. -/
def windowFrom (c : Cursor) : List Item → Nat → Nat → List (Item × Nat)
  | [], _, _ => []
  | item :: rest, idx, need =>
      if need = 0 then []
      else if isRated c item.id then windowFrom c rest (idx + 1) need
      else (item, idx) :: windowFrom c rest (idx + 1) (need - 1)

/-- getWindow: the window of up to WINDOW_SIZE unrated items starting at
currentIndex. -/
def getWindow (c : Cursor) : List (Item × Nat) :=
  windowFrom c (c.items.drop c.currentIndex) c.currentIndex c.windowSize

/-- init: store the item list, take the saved currentIndex, sets and
history, then skip already-rated items forward to the real position. -/
def init (cfg : Config) (itemList : List Item) (savedState : ProgressState) :
    Cursor :=
  let c : Cursor :=
    { windowSize := cfg.windowSize
      preloadAhead := cfg.preloadAhead
      historyMax := cfg.maxHistorySize
      items := itemList
      currentIndex := savedState.currentIndex
      seenSet := savedState.seen.toFinset
      notSeenSet := savedState.notSeen.toFinset
      history := savedState.history }
  { c with
      currentIndex :=
        advanceFrom c (itemList.drop savedState.currentIndex)
          savedState.currentIndex }

/-- trimHistory: if the history exceeds HISTORY_MAX_SIZE, keep only the
last HISTORY_MAX_SIZE entries (slice(-HISTORY_MAX_SIZE)). -/
def trimHistory (c : Cursor) : Cursor :=
  if c.history.length > c.historyMax then
    { c with history := c.history.drop (c.history.length - c.historyMax) }
  else c

/-- advanceToNext: increment the raw pointer, then skip rated items. -/
def advanceToNext (c : Cursor) : Cursor :=
  { c with
      currentIndex :=
        advanceFrom c (c.items.drop (c.currentIndex + 1)) (c.currentIndex + 1) }

/-- markSeen: resolve the current unrated item; on none return false and
leave the state untouched; otherwise add its id to seenSet, push a history
entry, trim, advance.  Returns the success flag with the next state. -/
def markSeen (c : Cursor) : Bool × Cursor :=
  match getCurrentItem c with
  | none => (false, c)
  | some (item, _) =>
      let c1 := { c with
        seenSet := insert item.id c.seenSet
        history := c.history ++ [{ id := item.id, action := ActionKind.seen }] }
      (true, advanceToNext (trimHistory c1))

/-- markNotSeen: as markSeen, into notSeenSet with action kind notSeen. -/
def markNotSeen (c : Cursor) : Bool × Cursor :=
  match getCurrentItem c with
  | none => (false, c)
  | some (item, _) =>
      let c1 := { c with
        notSeenSet := insert item.id c.notSeenSet
        history :=
          c.history ++ [{ id := item.id, action := ActionKind.notSeen }] }
      (true, advanceToNext (trimHistory c1))

/-- undo: on empty history return false; otherwise pop the last action,
remove its id from the set it was recorded against, and if the id occurs
in the item list at an index strictly before the raw pointer, rewind the
pointer to that index. -/
def undo (c : Cursor) : Bool × Cursor :=
  match c.history.getLast? with
  | none => (false, c)
  | some lastAction =>
      let c1 := { c with history := c.history.dropLast }
      let c2 :=
        match lastAction.action with
        | ActionKind.seen => { c1 with seenSet := c1.seenSet.erase lastAction.id }
        | ActionKind.notSeen =>
            { c1 with notSeenSet := c1.notSeenSet.erase lastAction.id }
      let c3 :=
        match c.items.findIdx? (fun m => m.id = lastAction.id) with
        | some itemIdx =>
            if itemIdx < c2.currentIndex then { c2 with currentIndex := itemIdx }
            else c2
        | none => c2
      (true, c3)

/-- reset: clear both sets and the history, pointer back to 0. -/
def reset (c : Cursor) : Cursor :=
  { c with currentIndex := 0, seenSet := ∅, notSeenSet := ∅, history := [] }

/-- isComplete: true iff getCurrentItem finds nothing. -/
def isComplete (c : Cursor) : Bool :=
  (getCurrentItem c).isNone

end SlidingWindow

namespace StorageManager

/-- The 2-bit code computed for one catalog item in exportCompressed:
0 unrated, 1 seen, 2 not seen (3 unused). -/
def codeOf (seenS notSeenS : Finset Nat) (item : Item) : Nat :=
  if item.id ∈ seenS then 1 else if item.id ∈ notSeenS then 2 else 0

/-- The items.forEach loop of exportCompressed packing 2 bits per item into
the byte buffer: items with index at or beyond totalItems are skipped
(`if (index >= totalItems) return`), otherwise the code is ORed into the
byte at floor(index*2/8) with shift (index*2 mod 8).  The Uint8Array store
truncates to a byte, hence the mod 256; a store beyond the buffer length is
silently dropped by Uint8Array, matching List.set out of range. -/
def packFrom (T : Nat) (seenS notSeenS : Finset Nat) :
    List Item → Nat → List Nat → List Nat
  | [], _, bytes => bytes
  | item :: rest, index, bytes =>
      if T ≤ index then packFrom T seenS notSeenS rest (index + 1) bytes
      else
        let value := codeOf seenS notSeenS item
        let bitPosition := index * 2
        let byteIndex := bitPosition / 8
        let bitOffset := bitPosition % 8
        packFrom T seenS notSeenS rest (index + 1)
          (bytes.set byteIndex
            ((bytes.getD byteIndex 0 ||| (value <<< bitOffset)) % 256))

/-- The pre-compression byte buffer built by exportCompressed: a
zero-initialized buffer of ceil(totalItems*2/8) bytes (totalItems is the
configured totalCount), filled by the packing loop over the item list. -/
def exportBytes (T : Nat) (items : List Item) (state : ProgressState) :
    List Nat :=
  packFrom T state.seen.toFinset state.notSeen.toFinset items 0
    (List.replicate ((T * 2 + 7) / 8) 0)

/-- A parsed envelope object: the fields the codec reads from decoded JSON
data.  `d` holds the v2 payload after base64 decoding.  Modelled from the
spec: base64 (btoa/atob) is a lossless byte transport, so the payload is
kept as the byte list itself; an absent field is none. -/
structure EnvData where
  v : Option Nat
  i : Option Nat
  d : Option (List Nat)
  s : Option (List Nat)
  n : Option (List Nat)
  deriving DecidableEq

/-- A transport code, modelled from the spec by its two parse outcomes:
`v2Parse` is the envelope obtained by LZString.decompressFromBase64
followed by JSON.parse (none when decompression yields nothing or parsing
throws), `v1Parse` the envelope obtained by atob followed by JSON.parse
(none when either throws).  The spec describes LZString as a
general-purpose lossless compressor, so compression round-trips and these
outcomes fully determine what importCompressed can observe of a string. -/
structure Code where
  v2Parse : Option EnvData
  v1Parse : Option EnvData
  deriving DecidableEq

/-- Reading the 2-bit code of position `p` from the byte buffer in
decodeBitArray: `(bytes[byteIndex] >> bitOffset) & 0b11`.  An out-of-range
read yields undefined which the JS shift coerces to 0, matching getD 0. -/
def readBits (bytes : List Nat) (p : Nat) : Nat :=
  (bytes.getD (p * 2 / 8) 0 >>> (p * 2 % 8)) &&& 3

/-- The items.forEach loop of decodeBitArray: for each item with index
below totalCount, read its 2-bit code and push its id into the seen list
on code 1, into the notSeen list on code 2, nothing otherwise. -/
def decodeLists (T : Nat) (bytes : List Nat) :
    List Item → Nat → List Nat × List Nat
  | [], _ => ([], [])
  | item :: rest, index =>
      let acc := decodeLists T bytes rest (index + 1)
      if T ≤ index then acc
      else
        let value := readBits bytes index
        if value = 1 then (item.id :: acc.1, acc.2)
        else if value = 2 then (acc.1, item.id :: acc.2)
        else acc

/-- decodeBitArray: decode the bit payload of a v2 envelope against the
loaded item list, producing a fresh state with empty history and the
currentIndex hint `data.i || 0`.  The base64 decoding of data.d is
modelled as the identity on the byte list (see EnvData); the try/catch
cannot fire in this total model. -/
def decodeBitArray (T : Nat) (items : List Item) (data : EnvData) :
    Option ProgressState :=
  let bytes := data.d.getD []
  let sn := decodeLists T bytes items 0
  some { currentIndex := data.i.getD 0, seen := sn.1, notSeen := sn.2,
         history := [] }

/-- importCompressed: take the v2 parse outcome if it produced data, else
the v1 parse outcome; if neither, return null.  On the parsed data, the v2
branch requires `v === 2` and a truthy `d` (present, nonempty); otherwise
the v1 branch requires `v === 1` and array fields s and n; otherwise null. -/
def importCompressed (T : Nat) (items : List Item) (code : Code) :
    Option ProgressState :=
  match (match code.v2Parse with
         | some data => some data
         | none => code.v1Parse) with
  | none => none
  | some data =>
      if data.v = some 2 ∧ data.d.getD [] ≠ [] then
        decodeBitArray T items data
      else if data.v = some 1 ∧ data.s.isSome ∧ data.n.isSome then
        some { currentIndex := data.i.getD 0, seen := data.s.getD [],
               notSeen := data.n.getD [], history := [] }
      else none

/-- exportCompressed: build the bit buffer, base64 it, wrap it in the
envelope with version marker 2 and the currentIndex hint, compress.
Modelled from the spec: the compressed string is represented by its parse
outcomes, so v2Parse recovers exactly the envelope (lossless compressor),
and the direct base64 parse of compressor output is not valid JSON, so
v1Parse is none. -/
def exportCompressed (T : Nat) (items : List Item) (state : ProgressState) :
    Code :=
  { v2Parse := some
      { v := some 2, i := some state.currentIndex,
        d := some (exportBytes T items state), s := none, n := none }
    v1Parse := none }

/-- exportLegacy: the v1 envelope with the raw id arrays, base64-encoded
JSON.  Modelled from the spec: its v1Parse recovers the envelope; LZString
decompression of a plain base64 JSON string yields nothing parseable, so
v2Parse is none. -/
def exportLegacy (state : ProgressState) : Code :=
  { v2Parse := none
    v1Parse := some
      { v := some 1, i := some state.currentIndex, d := none,
        s := some state.seen, n := some state.notSeen } }

/-- exportCompressed with its try/catch made explicit.  Modelled from the
spec: an internal failure of the v2 encoding (the catch branch) cannot
occur in the total shallow embedding, so it is represented by an explicit
flag; on failure the function returns the legacy v1 code. -/
def exportCompressedTry (fail : Bool) (T : Nat) (items : List Item)
    (state : ProgressState) : Code :=
  if fail then exportLegacy state else exportCompressed T items state

end StorageManager

/-! ### Cursor helper lemmas -/

namespace SlidingWindow

@[simp]
theorem trimHistory_seenSet (c : Cursor) : (trimHistory c).seenSet = c.seenSet := by
  unfold trimHistory; split <;> rfl

@[simp]
theorem trimHistory_notSeenSet (c : Cursor) :
    (trimHistory c).notSeenSet = c.notSeenSet := by
  unfold trimHistory; split <;> rfl

@[simp]
theorem trimHistory_items (c : Cursor) : (trimHistory c).items = c.items := by
  unfold trimHistory; split <;> rfl

@[simp]
theorem trimHistory_currentIndex (c : Cursor) :
    (trimHistory c).currentIndex = c.currentIndex := by
  unfold trimHistory; split <;> rfl

@[simp]
theorem trimHistory_historyMax (c : Cursor) :
    (trimHistory c).historyMax = c.historyMax := by
  unfold trimHistory; split <;> rfl

@[simp]
theorem advanceToNext_seenSet (c : Cursor) :
    (advanceToNext c).seenSet = c.seenSet := rfl

@[simp]
theorem advanceToNext_notSeenSet (c : Cursor) :
    (advanceToNext c).notSeenSet = c.notSeenSet := rfl

@[simp]
theorem advanceToNext_items (c : Cursor) : (advanceToNext c).items = c.items := rfl

@[simp]
theorem advanceToNext_history (c : Cursor) :
    (advanceToNext c).history = c.history := rfl

@[simp]
theorem advanceToNext_historyMax (c : Cursor) :
    (advanceToNext c).historyMax = c.historyMax := rfl

/-- The first element of the getWindow collection loop is exactly the
result of the getCurrentItem scan loop, as long as the window size bound
is not already exhausted. -/
theorem windowFrom_head (c : Cursor) :
    ∀ (l : List Item) (idx need : Nat), need ≠ 0 →
      (windowFrom c l idx need).head? = scanFrom c l idx := by
  intro l
  induction l with
  | nil => intro idx need _; rfl
  | cons item rest ih =>
      intro idx need hneed
      unfold windowFrom scanFrom
      rw [if_neg hneed]
      by_cases hr : isRated c item.id
      · rw [if_pos hr, if_pos hr, ih (idx + 1) need hneed]
      · rw [if_neg hr, if_neg hr, List.head?_cons]

/-- Claim C7: in every cursor state whose window size is positive (true of
every state reachable in the shipped system, where ui.windowSize is 5),
getCurrentItem returns exactly the first element of getWindow, same item
and same position index, and it returns none exactly when the window is
empty. -/
theorem c7_current_window_agreement (c : Cursor) (hw : 0 < c.windowSize) :
    (getWindow c).head? = getCurrentItem c ∧
      (getWindow c = [] ↔ getCurrentItem c = none) := by
  have h := windowFrom_head c (c.items.drop c.currentIndex) c.currentIndex
    c.windowSize (Nat.pos_iff_ne_zero.mp hw)
  refine ⟨h, ?_⟩
  show getWindow c = [] ↔ getCurrentItem c = none
  unfold getWindow getCurrentItem
  rw [← h, List.head?_eq_none_iff]

/-- Witness for C7 at a concrete reachable state. -/
theorem c7_current_window_agreement_witness :
    let c := init defaultConfig [⟨1⟩, ⟨2⟩] ⟨0, [1], [], []⟩
    (getWindow c).head? = getCurrentItem c ∧
      (getWindow c = [] ↔ getCurrentItem c = none) :=
  c7_current_window_agreement _ (by decide)

end SlidingWindow

/-- Claim C6: on the catalog with ids 1..5 from the empty state, markSeen
rates id 1 and markNotSeen rates id 2, after which getCurrentItem returns
the item with id 3; undo then makes getCurrentItem return the item with
id 2 again and removes 2 from the notSeen set. -/
theorem c6_undo_scenario :
    let items : List Item := [⟨1⟩, ⟨2⟩, ⟨3⟩, ⟨4⟩, ⟨5⟩]
    let c0 := SlidingWindow.init defaultConfig items ⟨0, [], [], []⟩
    let c1 := (SlidingWindow.markSeen c0).2
    let c2 := (SlidingWindow.markNotSeen c1).2
    let c3 := (SlidingWindow.undo c2).2
    (SlidingWindow.markSeen c0).1 = true ∧
      (SlidingWindow.markNotSeen c1).1 = true ∧
      1 ∈ c1.seenSet ∧ 2 ∈ c2.notSeenSet ∧
      (SlidingWindow.getCurrentItem c2).map (fun p => p.1.id) = some 3 ∧
      (SlidingWindow.undo c2).1 = true ∧
      (SlidingWindow.getCurrentItem c3).map (fun p => p.1.id) = some 2 ∧
      2 ∉ c3.notSeenSet := by
  decide

namespace SlidingWindow

/-- An item returned by the getCurrentItem scan loop is unrated. -/
theorem scanFrom_unrated (c : Cursor) :
    ∀ (l : List Item) (idx : Nat) (it : Item) (p : Nat),
      scanFrom c l idx = some (it, p) → ¬ isRated c it.id := by
  intro l
  induction l with
  | nil => intro idx it p h; cases h
  | cons item rest ih =>
      intro idx it p h
      unfold scanFrom at h
      by_cases hr : isRated c item.id
      · rw [if_pos hr] at h
        exact ih (idx + 1) it p h
      · rw [if_neg hr] at h
        cases h
        exact hr

/-- The item resolved by getCurrentItem is unrated. -/
theorem getCurrentItem_unrated (c : Cursor) (it : Item) (p : Nat)
    (h : getCurrentItem c = some (it, p)) : ¬ isRated c it.id :=
  scanFrom_unrated c _ _ it p h

end SlidingWindow

/-- One external call of the sequences quantified over in the invariant:
markSeen, markNotSeen or undo. -/
inductive RatingCall where
  | markSeen
  | markNotSeen
  | undo
  deriving DecidableEq, Repr

/-- Apply one call to the cursor, keeping the resulting state and
discarding the boolean result. -/
def applyRating (call : RatingCall) (c : SlidingWindow.Cursor) :
    SlidingWindow.Cursor :=
  match call with
  | RatingCall.markSeen => (SlidingWindow.markSeen c).2
  | RatingCall.markNotSeen => (SlidingWindow.markNotSeen c).2
  | RatingCall.undo => (SlidingWindow.undo c).2

/-- Run a sequence of markSeen/markNotSeen/undo calls. -/
def runRating (calls : List RatingCall) (c : SlidingWindow.Cursor) :
    SlidingWindow.Cursor :=
  calls.foldl (fun c call => applyRating call c) c

namespace SlidingWindow

/-- The two rating sets after markSeen: either the call failed and the
state is untouched, or the current unrated id was inserted into seenSet. -/
theorem markSeen_sets (c : Cursor) :
    ((markSeen c).2.seenSet = c.seenSet ∧ (markSeen c).2.notSeenSet = c.notSeenSet)
    ∨ (∃ id, ¬ isRated c id ∧ (markSeen c).2.seenSet = insert id c.seenSet ∧
        (markSeen c).2.notSeenSet = c.notSeenSet) := by
  unfold markSeen
  cases hcur : getCurrentItem c with
  | none => exact Or.inl ⟨rfl, rfl⟩
  | some pr =>
      obtain ⟨it, p⟩ := pr
      exact Or.inr ⟨it.id, getCurrentItem_unrated c it p hcur, by simp, by simp⟩

/-- The two rating sets after markNotSeen. -/
theorem markNotSeen_sets (c : Cursor) :
    ((markNotSeen c).2.seenSet = c.seenSet ∧
      (markNotSeen c).2.notSeenSet = c.notSeenSet)
    ∨ (∃ id, ¬ isRated c id ∧ (markNotSeen c).2.seenSet = c.seenSet ∧
        (markNotSeen c).2.notSeenSet = insert id c.notSeenSet) := by
  unfold markNotSeen
  cases hcur : getCurrentItem c with
  | none => exact Or.inl ⟨rfl, rfl⟩
  | some pr =>
      obtain ⟨it, p⟩ := pr
      exact Or.inr ⟨it.id, getCurrentItem_unrated c it p hcur, by simp, by simp⟩

theorem undo_sets (c : Cursor) :
    ((undo c).2.seenSet = c.seenSet ∨
      ∃ id, (undo c).2.seenSet = c.seenSet.erase id) ∧
    ((undo c).2.notSeenSet = c.notSeenSet ∨
      ∃ id, (undo c).2.notSeenSet = c.notSeenSet.erase id) := by
  unfold undo
  cases hl : c.history.getLast? with
  | none => exact ⟨Or.inl rfl, Or.inl rfl⟩
  | some lastAction =>
      simp only []
      cases hk : lastAction.action <;>
        simp only [hk] <;>
        cases hidx : c.items.findIdx? (fun m => m.id = lastAction.id) <;>
          simp only [hidx] <;>
          (try split) <;>
          refine ⟨?_, ?_⟩ <;>
            first
              | exact Or.inl trivial
              | exact Or.inl rfl
              | exact Or.inr ⟨lastAction.id, rfl⟩

end SlidingWindow

/-- Each single call preserves disjointness of the two rating sets. -/
theorem applyRating_disjoint (call : RatingCall) (c : SlidingWindow.Cursor)
    (h : c.seenSet ∩ c.notSeenSet = ∅) :
    (applyRating call c).seenSet ∩ (applyRating call c).notSeenSet = ∅ := by
  have hsub : ∀ s t : Finset Nat, s ⊆ c.seenSet → t ⊆ c.notSeenSet →
      s ∩ t = ∅ := by
    intro s t hs ht
    apply Finset.eq_empty_of_forall_not_mem
    intro x hx
    rw [Finset.mem_inter] at hx
    have : x ∈ c.seenSet ∩ c.notSeenSet :=
      Finset.mem_inter.mpr ⟨hs hx.1, ht hx.2⟩
    rw [h] at this
    exact absurd this (Finset.not_mem_empty x)
  cases call with
  | markSeen =>
      show ((SlidingWindow.markSeen c).2).seenSet ∩
        ((SlidingWindow.markSeen c).2).notSeenSet = ∅
      rcases SlidingWindow.markSeen_sets c with ⟨h1, h2⟩ | ⟨id, hur, h1, h2⟩
      · rw [h1, h2]; exact h
      · rw [h1, h2]
        have hid : id ∉ c.notSeenSet := fun hm => hur (Or.inr hm)
        rw [Finset.insert_inter_of_not_mem hid]
        exact h
  | markNotSeen =>
      show ((SlidingWindow.markNotSeen c).2).seenSet ∩
        ((SlidingWindow.markNotSeen c).2).notSeenSet = ∅
      rcases SlidingWindow.markNotSeen_sets c with ⟨h1, h2⟩ | ⟨id, hur, h1, h2⟩
      · rw [h1, h2]; exact h
      · rw [h1, h2]
        have hid : id ∉ c.seenSet := fun hm => hur (Or.inl hm)
        rw [Finset.inter_insert_of_not_mem hid]
        exact h
  | undo =>
      show ((SlidingWindow.undo c).2).seenSet ∩
        ((SlidingWindow.undo c).2).notSeenSet = ∅
      obtain ⟨hs, hn⟩ := SlidingWindow.undo_sets c
      have hs1 : ((SlidingWindow.undo c).2).seenSet ⊆ c.seenSet := by
        rcases hs with h1 | ⟨id, h1⟩
        · rw [h1]
        · rw [h1]; exact Finset.erase_subset id c.seenSet
      have hn1 : ((SlidingWindow.undo c).2).notSeenSet ⊆ c.notSeenSet := by
        rcases hn with h1 | ⟨id, h1⟩
        · rw [h1]
        · rw [h1]; exact Finset.erase_subset id c.notSeenSet
      exact hsub _ _ hs1 hn1

/-- Claim C2: starting from init with a saved state whose seen and notSeen
sets are disjoint, after every call in any sequence of markSeen,
markNotSeen and undo calls the seen set and the notSeen set have empty
intersection.  The sequence of calls is arbitrary, so the conclusion holds
after every prefix, i.e. after every call. -/
theorem c2_disjoint_invariant (cfg : Config) (items : List Item)
    (saved : ProgressState)
    (h : saved.seen.toFinset ∩ saved.notSeen.toFinset = ∅)
    (calls : List RatingCall) :
    (runRating calls (SlidingWindow.init cfg items saved)).seenSet ∩
      (runRating calls (SlidingWindow.init cfg items saved)).notSeenSet = ∅ := by
  have hgen : ∀ (l : List RatingCall) (c : SlidingWindow.Cursor),
      c.seenSet ∩ c.notSeenSet = ∅ →
      (runRating l c).seenSet ∩ (runRating l c).notSeenSet = ∅ := by
    intro l
    induction l with
    | nil => intro c hc; exact hc
    | cons call rest ih =>
        intro c hc
        exact ih (applyRating call c) (applyRating_disjoint call c hc)
  exact hgen calls _ h

/-- Witness for C2 at a concrete saved state and call sequence. -/
theorem c2_disjoint_invariant_witness :
    (runRating [RatingCall.markSeen, RatingCall.undo, RatingCall.markNotSeen]
        (SlidingWindow.init defaultConfig [⟨1⟩, ⟨2⟩, ⟨3⟩] ⟨0, [3], [2], []⟩)).seenSet ∩
      (runRating [RatingCall.markSeen, RatingCall.undo, RatingCall.markNotSeen]
        (SlidingWindow.init defaultConfig [⟨1⟩, ⟨2⟩, ⟨3⟩] ⟨0, [3], [2], []⟩)).notSeenSet =
      ∅ :=
  c2_disjoint_invariant defaultConfig [⟨1⟩, ⟨2⟩, ⟨3⟩] ⟨0, [3], [2], []⟩ (by decide) _

namespace SlidingWindow

/-- trimHistory leaves exactly min(length, HISTORY_MAX_SIZE) entries. -/
theorem trimHistory_length (c : Cursor) :
    (trimHistory c).history.length = min c.history.length c.historyMax := by
  unfold trimHistory
  split
  · next hgt =>
      simp only [List.length_drop]
      omega
  · next hle => omega

/-- trimHistory keeps a suffix of the history: the most recent entries. -/
theorem trimHistory_suffix (c : Cursor) :
    (trimHistory c).history.IsSuffix c.history := by
  unfold trimHistory
  split
  · exact List.drop_suffix _ _
  · exact List.suffix_refl _

/-- The history and bound after markSeen: on failure unchanged, on success
the pushed-and-trimmed history, never longer than the bound. -/
theorem markSeen_history (c : Cursor) :
    (markSeen c).2.historyMax = c.historyMax ∧
      ((markSeen c).2.history = c.history ∨
        (markSeen c).2.history.length ≤ c.historyMax) := by
  unfold markSeen
  cases hcur : getCurrentItem c with
  | none => exact ⟨rfl, Or.inl rfl⟩
  | some pr =>
      obtain ⟨it, p⟩ := pr
      refine ⟨by simp [trimHistory]; split <;> rfl, Or.inr ?_⟩
      show (advanceToNext (trimHistory _)).history.length ≤ c.historyMax
      rw [advanceToNext_history, trimHistory_length]
      exact le_trans (min_le_right _ _) (le_refl _)

/-- The history and bound after markNotSeen. -/
theorem markNotSeen_history (c : Cursor) :
    (markNotSeen c).2.historyMax = c.historyMax ∧
      ((markNotSeen c).2.history = c.history ∨
        (markNotSeen c).2.history.length ≤ c.historyMax) := by
  unfold markNotSeen
  cases hcur : getCurrentItem c with
  | none => exact ⟨rfl, Or.inl rfl⟩
  | some pr =>
      obtain ⟨it, p⟩ := pr
      refine ⟨by simp [trimHistory]; split <;> rfl, Or.inr ?_⟩
      show (advanceToNext (trimHistory _)).history.length ≤ c.historyMax
      rw [advanceToNext_history, trimHistory_length]
      exact le_trans (min_le_right _ _) (le_refl _)

/-- The history and bound after undo: unchanged or one entry popped. -/
theorem undo_history (c : Cursor) :
    (undo c).2.historyMax = c.historyMax ∧
      ((undo c).2.history = c.history ∨
        (undo c).2.history = c.history.dropLast) := by
  unfold undo
  cases hl : c.history.getLast? with
  | none => exact ⟨rfl, Or.inl rfl⟩
  | some lastAction =>
      simp only []
      cases hk : lastAction.action <;>
        simp only [hk] <;>
        cases hidx : c.items.findIdx? (fun m => m.id = lastAction.id) <;>
          simp only [hidx] <;>
          (try split) <;>
          refine ⟨?_, ?_⟩ <;>
            first
              | rfl
              | trivial
              | (right; first | rfl | trivial)

end SlidingWindow

/-- One cursor call of the kinds named by the history-bound claim:
markSeen, markNotSeen, undo or reset. -/
inductive CursorCall where
  | markSeen
  | markNotSeen
  | undo
  | reset
  deriving DecidableEq, Repr

/-- Apply one cursor call, discarding the boolean result where present. -/
def applyCursor (call : CursorCall) (c : SlidingWindow.Cursor) :
    SlidingWindow.Cursor :=
  match call with
  | CursorCall.markSeen => (SlidingWindow.markSeen c).2
  | CursorCall.markNotSeen => (SlidingWindow.markNotSeen c).2
  | CursorCall.undo => (SlidingWindow.undo c).2
  | CursorCall.reset => SlidingWindow.reset c

/-- Run a sequence of cursor calls. -/
def runCursor (calls : List CursorCall) (c : SlidingWindow.Cursor) :
    SlidingWindow.Cursor :=
  calls.foldl (fun c call => applyCursor call c) c

/-- Each call preserves the history bound together with the bound value. -/
theorem applyCursor_history_bound (call : CursorCall)
    (c : SlidingWindow.Cursor) (h : c.history.length ≤ c.historyMax) :
    (applyCursor call c).history.length ≤ (applyCursor call c).historyMax := by
  cases call with
  | markSeen =>
      obtain ⟨hm, hh⟩ := SlidingWindow.markSeen_history c
      show ((SlidingWindow.markSeen c).2).history.length ≤
        ((SlidingWindow.markSeen c).2).historyMax
      rw [hm]
      rcases hh with h1 | h1
      · rw [h1]; exact h
      · exact h1
  | markNotSeen =>
      obtain ⟨hm, hh⟩ := SlidingWindow.markNotSeen_history c
      show ((SlidingWindow.markNotSeen c).2).history.length ≤
        ((SlidingWindow.markNotSeen c).2).historyMax
      rw [hm]
      rcases hh with h1 | h1
      · rw [h1]; exact h
      · exact h1
  | undo =>
      obtain ⟨hm, hh⟩ := SlidingWindow.undo_history c
      show ((SlidingWindow.undo c).2).history.length ≤
        ((SlidingWindow.undo c).2).historyMax
      rw [hm]
      rcases hh with h1 | h1
      · rw [h1]; exact h
      · rw [h1]
        calc c.history.dropLast.length ≤ c.history.length :=
              by rw [List.length_dropLast]; omega
          _ ≤ c.historyMax := h
  | reset =>
      show (SlidingWindow.reset c).history.length ≤
        (SlidingWindow.reset c).historyMax
      simp [SlidingWindow.reset]

/-- Claim C9 (counterexample): init does not trim a persisted history, so
initializing from a saved state whose history holds 101 entries leaves a
history of 101 entries, exceeding the configured bound of 100. -/
theorem c9_history_bound_counterexample :
    ¬ ((SlidingWindow.init defaultConfig [⟨1⟩]
        ⟨0, [], [], List.replicate 101 ⟨0, ActionKind.seen⟩⟩).history.length ≤ 100) := by
  show ¬ ((List.replicate 101 (⟨0, ActionKind.seen⟩ : RatingAction)).length ≤ 100)
  rw [List.length_replicate]
  omega

/-- Claim C9 (amended): provided the saved state respects the configured
bound (the default bound is 100; init copies the persisted history
verbatim, so a longer persisted history survives init), the history length
stays within the bound after every markSeen, markNotSeen, undo or reset
call, and trimming always keeps a suffix, i.e. drops oldest entries
first. -/
theorem c9_history_bound_amended (cfg : Config) (items : List Item)
    (saved : ProgressState)
    (h : saved.history.length ≤ cfg.maxHistorySize) :
    (∀ calls : List CursorCall,
        (runCursor calls (SlidingWindow.init cfg items saved)).history.length ≤
          (runCursor calls (SlidingWindow.init cfg items saved)).historyMax) ∧
    (∀ c : SlidingWindow.Cursor,
        (SlidingWindow.trimHistory c).history.IsSuffix c.history) := by
  constructor
  · have hgen : ∀ (l : List CursorCall) (c : SlidingWindow.Cursor),
        c.history.length ≤ c.historyMax →
        (runCursor l c).history.length ≤ (runCursor l c).historyMax := by
      intro l
      induction l with
      | nil => intro c hc; exact hc
      | cons call rest ih =>
          intro c hc
          exact ih (applyCursor call c) (applyCursor_history_bound call c hc)
    intro calls
    exact hgen calls _ h
  · exact SlidingWindow.trimHistory_suffix

/-- Witness for the amended C9 at a concrete configuration and call
sequence. -/
theorem c9_history_bound_amended_witness :
    (∀ calls : List CursorCall,
        (runCursor calls (SlidingWindow.init defaultConfig [⟨1⟩, ⟨2⟩]
          ⟨0, [], [], [⟨1, ActionKind.seen⟩]⟩)).history.length ≤
          (runCursor calls (SlidingWindow.init defaultConfig [⟨1⟩, ⟨2⟩]
            ⟨0, [], [], [⟨1, ActionKind.seen⟩]⟩)).historyMax) ∧
    (∀ c : SlidingWindow.Cursor,
        (SlidingWindow.trimHistory c).history.IsSuffix c.history) :=
  c9_history_bound_amended defaultConfig [⟨1⟩, ⟨2⟩]
    ⟨0, [], [], [⟨1, ActionKind.seen⟩]⟩ (by decide)

namespace StorageManager

/-- The packing loop never changes the buffer length. -/
theorem packFrom_length (T : Nat) (S₁ S₂ : Finset Nat) :
    ∀ (l : List Item) (idx : Nat) (bytes : List Nat),
      (packFrom T S₁ S₂ l idx bytes).length = bytes.length := by
  intro l
  induction l with
  | nil => intro idx bytes; rfl
  | cons item rest ih =>
      intro idx bytes
      unfold packFrom
      split
      · exact ih (idx + 1) bytes
      · rw [ih (idx + 1) _, List.length_set]

/-- The byte buffer built by exportCompressed has ceil(totalCount*2/8)
bytes, with totalCount the configured total, whatever the item list. -/
theorem exportBytes_length (T : Nat) (items : List Item)
    (state : ProgressState) :
    (exportBytes T items state).length = (T * 2 + 7) / 8 := by
  unfold exportBytes
  rw [packFrom_length, List.length_replicate]

end StorageManager

/-- Claim C4 (counterexample): with the shipped configuration the codec
sizes the buffer from the configured totalCount of 5000, so encoding
against a one-item catalog yields 1250 bytes, not ceil(1*2/8) = 1 byte. -/
theorem c4_buffer_size_counterexample :
    (StorageManager.exportBytes 5000 [⟨1⟩] ⟨0, [], [], []⟩).length ≠
      (([⟨1⟩] : List Item).length * 2 + 7) / 8 := by
  rw [StorageManager.exportBytes_length]
  decide

/-- Claim C4 (amended): for every State and item list, the
pre-compression byte buffer built by exportCompressed has exactly
ceil(totalCount*2/8) bytes, where totalCount is the configured
data.totalCount at encode time; this equals ceil(N*2/8) for the Catalog
length N only when the configuration matches the catalog size. -/
theorem c4_buffer_size_amended (T : Nat) (items : List Item)
    (state : ProgressState) :
    (StorageManager.exportBytes T items state).length = (T * 2 + 7) / 8 :=
  StorageManager.exportBytes_length T items state

namespace StorageManager

/-- Membership in the decoded seen list: exactly the ids of items whose
position is below totalCount and whose 2-bit code reads 1. -/
theorem decodeLists_seen_mem (T : Nat) (bytes : List Nat) :
    ∀ (l : List Item) (idx : Nat) (id : Nat),
      id ∈ (decodeLists T bytes l idx).1 ↔
        ∃ k, ∃ hk : k < l.length, idx + k < T ∧
          readBits bytes (idx + k) = 1 ∧ (l.get ⟨k, hk⟩).id = id := by
  intro l
  induction l with
  | nil =>
      intro idx id
      simp [decodeLists]
  | cons item rest ih =>
      intro idx id
      unfold decodeLists
      by_cases hT : T ≤ idx
      · rw [if_pos hT, ih (idx + 1) id]
        constructor
        · rintro ⟨k, hk, h1, h2, h3⟩
          refine ⟨k + 1, by simpa using Nat.succ_lt_succ hk, by omega, ?_, ?_⟩
          · have : idx + (k + 1) = idx + 1 + k := by omega
            rw [this]; exact h2
          · exact h3
        · rintro ⟨k, hk, h1, h2, h3⟩
          cases k with
          | zero => omega
          | succ k' =>
              refine ⟨k', by simpa using Nat.lt_of_succ_lt_succ hk, by omega, ?_, ?_⟩
              · have : idx + 1 + k' = idx + (k' + 1) := by omega
                rw [this]; exact h2
              · exact h3
      · rw [if_neg hT]
        by_cases h1 : readBits bytes idx = 1
        · rw [if_pos h1]
          simp only [List.mem_cons]
          rw [ih (idx + 1) id]
          constructor
          · rintro (heq | ⟨k, hk, ha, hb, hc⟩)
            · exact ⟨0, by simp, by omega, by simpa using h1, heq.symm⟩
            · refine ⟨k + 1, by simpa using Nat.succ_lt_succ hk, by omega, ?_, hc⟩
              have : idx + (k + 1) = idx + 1 + k := by omega
              rw [this]; exact hb
          · rintro ⟨k, hk, ha, hb, hc⟩
            cases k with
            | zero => exact Or.inl hc.symm
            | succ k' =>
                refine Or.inr ⟨k', by simpa using Nat.lt_of_succ_lt_succ hk,
                  by omega, ?_, hc⟩
                have : idx + 1 + k' = idx + (k' + 1) := by omega
                rw [this]; exact hb
        · rw [if_neg h1]
          have hsplit : ((if readBits bytes idx = 2 then
              ((decodeLists T bytes rest (idx + 1)).1,
                item.id :: (decodeLists T bytes rest (idx + 1)).2)
            else decodeLists T bytes rest (idx + 1))).1 =
              (decodeLists T bytes rest (idx + 1)).1 := by
            split <;> rfl
          rw [hsplit, ih (idx + 1) id]
          constructor
          · rintro ⟨k, hk, ha, hb, hc⟩
            refine ⟨k + 1, by simpa using Nat.succ_lt_succ hk, by omega, ?_, hc⟩
            have : idx + (k + 1) = idx + 1 + k := by omega
            rw [this]; exact hb
          · rintro ⟨k, hk, ha, hb, hc⟩
            cases k with
            | zero =>
                exact absurd (by simpa using hb) h1
            | succ k' =>
                refine ⟨k', by simpa using Nat.lt_of_succ_lt_succ hk, by omega, ?_, hc⟩
                have : idx + 1 + k' = idx + (k' + 1) := by omega
                rw [this]; exact hb

/-- Membership in the decoded notSeen list: exactly the ids of items whose
position is below totalCount and whose 2-bit code reads 2. -/
theorem decodeLists_notSeen_mem (T : Nat) (bytes : List Nat) :
    ∀ (l : List Item) (idx : Nat) (id : Nat),
      id ∈ (decodeLists T bytes l idx).2 ↔
        ∃ k, ∃ hk : k < l.length, idx + k < T ∧
          readBits bytes (idx + k) = 2 ∧ (l.get ⟨k, hk⟩).id = id := by
  intro l
  induction l with
  | nil =>
      intro idx id
      simp [decodeLists]
  | cons item rest ih =>
      intro idx id
      unfold decodeLists
      by_cases hT : T ≤ idx
      · rw [if_pos hT, ih (idx + 1) id]
        constructor
        · rintro ⟨k, hk, h1, h2, h3⟩
          refine ⟨k + 1, by simpa using Nat.succ_lt_succ hk, by omega, ?_, h3⟩
          have : idx + (k + 1) = idx + 1 + k := by omega
          rw [this]; exact h2
        · rintro ⟨k, hk, h1, h2, h3⟩
          cases k with
          | zero => omega
          | succ k' =>
              refine ⟨k', by simpa using Nat.lt_of_succ_lt_succ hk, by omega, ?_, h3⟩
              have : idx + 1 + k' = idx + (k' + 1) := by omega
              rw [this]; exact h2
      · rw [if_neg hT]
        by_cases h1 : readBits bytes idx = 1
        · rw [if_pos h1]
          simp only []
          rw [ih (idx + 1) id]
          constructor
          · rintro ⟨k, hk, ha, hb, hc⟩
            refine ⟨k + 1, by simpa using Nat.succ_lt_succ hk, by omega, ?_, hc⟩
            have : idx + (k + 1) = idx + 1 + k := by omega
            rw [this]; exact hb
          · rintro ⟨k, hk, ha, hb, hc⟩
            cases k with
            | zero =>
                rw [Nat.add_zero] at hb
                omega
            | succ k' =>
                refine ⟨k', by simpa using Nat.lt_of_succ_lt_succ hk, by omega, ?_, hc⟩
                have : idx + 1 + k' = idx + (k' + 1) := by omega
                rw [this]; exact hb
        · rw [if_neg h1]
          by_cases h2 : readBits bytes idx = 2
          · rw [if_pos h2]
            simp only [List.mem_cons]
            rw [ih (idx + 1) id]
            constructor
            · rintro (heq | ⟨k, hk, ha, hb, hc⟩)
              · exact ⟨0, by simp, by omega, by simpa using h2, heq.symm⟩
              · refine ⟨k + 1, by simpa using Nat.succ_lt_succ hk, by omega, ?_, hc⟩
                have : idx + (k + 1) = idx + 1 + k := by omega
                rw [this]; exact hb
            · rintro ⟨k, hk, ha, hb, hc⟩
              cases k with
              | zero => exact Or.inl hc.symm
              | succ k' =>
                  refine Or.inr ⟨k', by simpa using Nat.lt_of_succ_lt_succ hk,
                    by omega, ?_, hc⟩
                  have : idx + 1 + k' = idx + (k' + 1) := by omega
                  rw [this]; exact hb
          · rw [if_neg h2]
            rw [ih (idx + 1) id]
            constructor
            · rintro ⟨k, hk, ha, hb, hc⟩
              refine ⟨k + 1, by simpa using Nat.succ_lt_succ hk, by omega, ?_, hc⟩
              have : idx + (k + 1) = idx + 1 + k := by omega
              rw [this]; exact hb
            · rintro ⟨k, hk, ha, hb, hc⟩
              cases k with
              | zero =>
                  rw [Nat.add_zero] at hb
                  omega
              | succ k' =>
                  refine ⟨k', by simpa using Nat.lt_of_succ_lt_succ hk, by omega, ?_, hc⟩
                  have : idx + 1 + k' = idx + (k' + 1) := by omega
                  rw [this]; exact hb

end StorageManager

namespace StorageManager

/-- Reduction of importCompressed when the v2 parse produced an envelope
passing the v2 checks. -/
theorem importCompressed_v2 (T : Nat) (items : List Item) (data : EnvData)
    (code : Code) (hc : code.v2Parse = some data)
    (h : data.v = some 2 ∧ data.d.getD [] ≠ []) :
    importCompressed T items code = decodeBitArray T items data := by
  unfold importCompressed
  simp only [hc]
  rw [if_pos h]

end StorageManager

/-- Claim C10: decoding leaves any position whose 2-bit code is the
reserved value 3 unrated: the id at that position lands in neither the
decoded seen list nor the decoded notSeen list (only codes 1 and 2 emit
ids; catalog ids are unique per the data model). -/
theorem c10_reserved_code (T : Nat) (items : List Item) (bytes : List Nat)
    (i p : Nat) (hp : p < items.length) (hpT : p < T)
    (hnodup : (items.map Item.id).Nodup)
    (h3 : StorageManager.readBits bytes p = 3) :
    ∃ st, StorageManager.decodeBitArray T items
        ⟨some 2, some i, some bytes, none, none⟩ = some st ∧
      (items.get ⟨p, hp⟩).id ∉ st.seen ∧ (items.get ⟨p, hp⟩).id ∉ st.notSeen := by
  refine ⟨_, rfl, ?_, ?_⟩
  · intro hmem
    rw [StorageManager.decodeLists_seen_mem] at hmem
    obtain ⟨k, hk, ha, hb, hc⟩ := hmem
    have hb' : StorageManager.readBits bytes k = 1 := by simpa using hb
    have hkp : k = p := by
      have hmap : (items.map Item.id).get ⟨k, by simpa using hk⟩ =
          (items.map Item.id).get ⟨p, by simpa using hp⟩ := by
        simp only [List.get_eq_getElem, List.getElem_map]
        simpa using hc
      have := (List.nodup_iff_injective_get.mp hnodup) hmap
      simpa using this
    rw [hkp] at hb'
    rw [hb'] at h3
    exact absurd h3 (by decide)
  · intro hmem
    rw [StorageManager.decodeLists_notSeen_mem] at hmem
    obtain ⟨k, hk, ha, hb, hc⟩ := hmem
    have hb' : StorageManager.readBits bytes k = 2 := by simpa using hb
    have hkp : k = p := by
      have hmap : (items.map Item.id).get ⟨k, by simpa using hk⟩ =
          (items.map Item.id).get ⟨p, by simpa using hp⟩ := by
        simp only [List.get_eq_getElem, List.getElem_map]
        simpa using hc
      have := (List.nodup_iff_injective_get.mp hnodup) hmap
      simpa using this
    rw [hkp] at hb'
    rw [hb'] at h3
    exact absurd h3 (by decide)

/-- Witness for C10 at a concrete payload: byte 0b00000011 gives position
0 the reserved code 3, and id 1 is decoded into neither list. -/
theorem c10_reserved_code_witness :
    ∃ st, StorageManager.decodeBitArray 4 [⟨1⟩, ⟨2⟩]
        ⟨some 2, some 0, some [3], none, none⟩ = some st ∧
      (([⟨1⟩, ⟨2⟩] : List Item).get ⟨0, by decide⟩).id ∉ st.seen ∧
      (([⟨1⟩, ⟨2⟩] : List Item).get ⟨0, by decide⟩).id ∉ st.notSeen :=
  c10_reserved_code 4 [⟨1⟩, ⟨2⟩] [3] 0 0 (by decide) (by decide) (by decide)
    (by decide)

/-- Claim C8: a v2 code encoded against a configured total of at least one
item, decoded against a (possibly smaller) item list, decodes without
error and reconstructs only ids of items present in the decode-time list;
bit positions beyond it are ignored. -/
theorem c8_catalog_overflow (Te T : Nat) (itemsE itemsD : List Item)
    (s : ProgressState) (hTe : 0 < Te) (hsz : itemsD.length ≤ itemsE.length) :
    ∃ st, StorageManager.importCompressed T itemsD
        (StorageManager.exportCompressed Te itemsE s) = some st ∧
      (∀ id ∈ st.seen, id ∈ itemsD.map Item.id) ∧
      (∀ id ∈ st.notSeen, id ∈ itemsD.map Item.id) := by
  have hne : StorageManager.exportBytes Te itemsE s ≠ [] := by
    have hlen : (StorageManager.exportBytes Te itemsE s).length = (Te * 2 + 7) / 8 :=
      StorageManager.exportBytes_length Te itemsE s
    intro hcon
    rw [hcon] at hlen
    simp at hlen
    omega
  have himp : StorageManager.importCompressed T itemsD
      (StorageManager.exportCompressed Te itemsE s) =
      some ⟨s.currentIndex,
        (StorageManager.decodeLists T (StorageManager.exportBytes Te itemsE s)
          itemsD 0).1,
        (StorageManager.decodeLists T (StorageManager.exportBytes Te itemsE s)
          itemsD 0).2, []⟩ := by
    rw [StorageManager.importCompressed_v2 T itemsD
      ⟨some 2, some s.currentIndex,
        some (StorageManager.exportBytes Te itemsE s), none, none⟩ _ rfl
      ⟨rfl, hne⟩]
    rfl
  refine ⟨_, himp, ?_, ?_⟩
  · intro id hmem
    rw [StorageManager.decodeLists_seen_mem] at hmem
    obtain ⟨k, hk, _, _, hc⟩ := hmem
    exact List.mem_map.mpr ⟨itemsD.get ⟨k, hk⟩, List.get_mem _ _ _, hc⟩
  · intro id hmem
    rw [StorageManager.decodeLists_notSeen_mem] at hmem
    obtain ⟨k, hk, _, _, hc⟩ := hmem
    exact List.mem_map.mpr ⟨itemsD.get ⟨k, hk⟩, List.get_mem _ _ _, hc⟩

/-- Witness for C8: encode two items against totalCount 2, decode against
the one-item prefix. -/
theorem c8_catalog_overflow_witness :
    ∃ st, StorageManager.importCompressed 2 [⟨1⟩]
        (StorageManager.exportCompressed 2 [⟨1⟩, ⟨2⟩] ⟨0, [2], [1], []⟩) = some st ∧
      (∀ id ∈ st.seen, id ∈ ([⟨1⟩] : List Item).map Item.id) ∧
      (∀ id ∈ st.notSeen, id ∈ ([⟨1⟩] : List Item).map Item.id) :=
  c8_catalog_overflow 2 2 [⟨1⟩, ⟨2⟩] [⟨1⟩] ⟨0, [2], [1], []⟩ (by decide)
    (by decide)

namespace StorageManager

/-- The v1 branch applied to a parsed envelope: require `v === 1` and
array fields s and n, else the invalid sentinel. -/
def dispatchV1 (data : EnvData) : Option ProgressState :=
  if data.v = some 1 ∧ data.s.isSome ∧ data.n.isSome then
    some { currentIndex := data.i.getD 0, seen := data.s.getD [],
           notSeen := data.n.getD [], history := [] }
  else none

/-- The decode policy exactly as the specification sentence states it:
attempt the v2 path (decompression parse, require `v === 2` and a truthy
`d`), and on any failure there, fall through to the v1 path, which
base64-decodes the original string directly; if both fail return the
invalid sentinel.  Written from the words of the spec for comparison with
importCompressed as translated from the source. -/
def importPerClaim (T : Nat) (items : List Item) (code : Code) :
    Option ProgressState :=
  match code.v2Parse with
  | some data =>
      if data.v = some 2 ∧ data.d.getD [] ≠ [] then decodeBitArray T items data
      else
        match code.v1Parse with
        | some d1 => dispatchV1 d1
        | none => none
  | none =>
      match code.v1Parse with
      | some d1 => dispatchV1 d1
      | none => none

/-- The version dispatch importCompressed applies to whichever parse
succeeded first: the v2 branch on `v === 2` with truthy `d`, else the v1
branch on `v === 1` with array s and n, else the invalid sentinel. -/
def dispatchEnvelope (T : Nat) (items : List Item) (data : EnvData) :
    Option ProgressState :=
  if data.v = some 2 ∧ data.d.getD [] ≠ [] then decodeBitArray T items data
  else dispatchV1 data

/-- The decode policy as the code implements it, written as an ordered
list of strategies: take the first parse stage that yields data (v2
decompression first, direct base64 second), then dispatch on that data by
version shape; the invalid sentinel only when no stage yields data or the
dispatch matches no version. -/
def importAmendedPolicy (T : Nat) (items : List Item) (code : Code) :
    Option ProgressState :=
  match code.v2Parse with
  | some data => dispatchEnvelope T items data
  | none =>
      match code.v1Parse with
      | some data => dispatchEnvelope T items data
      | none => none

end StorageManager

/-- Claim C5 (counterexample): a string whose LZString decompression
parses to a v1-shaped envelope while its direct base64 parse fails (for
example LZString applied to a v1 JSON envelope) is imported successfully
by the code via the v1 shape check on the decompressed data, whereas the
claimed policy would base64-decode the original string, fail, and return
the invalid sentinel. -/
theorem c5_decode_policy_counterexample :
    StorageManager.importCompressed 5 [⟨7⟩]
        ⟨some ⟨some 1, some 0, none, some [7], some []⟩, none⟩ ≠
      StorageManager.importPerClaim 5 [⟨7⟩]
        ⟨some ⟨some 1, some 0, none, some [7], some []⟩, none⟩ := by
  decide

/-- Claim C5 (amended): decode takes the first parse stage that yields
data, trying v2 decompression before the direct base64 decode, and applies
the version checks (v2: `v === 2` and truthy d; v1: `v === 1` and array
s/n) to whichever parsed data was obtained, returning the invalid sentinel
when no stage yields data or no check matches; every successfully decoded
state is fully populated with empty history; and encode falls back to the
v1 format exactly when v2 encoding fails internally, producing a code that
imports as the v1 state. -/
theorem c5_decode_policy_amended :
    (∀ (T : Nat) (items : List Item) (code : StorageManager.Code),
        StorageManager.importCompressed T items code =
          StorageManager.importAmendedPolicy T items code) ∧
    (∀ (T : Nat) (items : List Item) (code : StorageManager.Code)
        (st : ProgressState),
        StorageManager.importCompressed T items code = some st →
          st.history = []) ∧
    (∀ (T : Nat) (items : List Item) (s : ProgressState),
        StorageManager.importCompressed T items
            (StorageManager.exportCompressedTry true T items s) =
          some ⟨s.currentIndex, s.seen, s.notSeen, []⟩) := by
  refine ⟨?_, ?_, ?_⟩
  · intro T items code
    obtain ⟨v2, v1⟩ := code
    cases v2 with
    | some data =>
        unfold StorageManager.importCompressed StorageManager.importAmendedPolicy
          StorageManager.dispatchEnvelope StorageManager.dispatchV1
        rfl
    | none =>
        cases v1 with
        | some data =>
            unfold StorageManager.importCompressed
              StorageManager.importAmendedPolicy
              StorageManager.dispatchEnvelope StorageManager.dispatchV1
            rfl
        | none => rfl
  · intro T items code st h
    obtain ⟨v2, v1⟩ := code
    have hgen : ∀ data : StorageManager.EnvData,
        (if data.v = some 2 ∧ data.d.getD [] ≠ [] then
            StorageManager.decodeBitArray T items data
          else if data.v = some 1 ∧ data.s.isSome ∧ data.n.isSome then
            some { currentIndex := data.i.getD 0, seen := data.s.getD [],
                   notSeen := data.n.getD [], history := [] }
          else none) = some st → st.history = [] := by
      intro data hd
      split at hd
      · cases hd
        rfl
      · split at hd
        · cases hd
          rfl
        · cases hd
    cases v2 with
    | some data => exact hgen data h
    | none =>
        cases v1 with
        | some data => exact hgen data h
        | none => cases h
  · intro T items s
    rfl

namespace StorageManager

set_option maxRecDepth 10000 in
set_option maxHeartbeats 1000000 in
/-- Writing a 2-bit value into a clear 2-bit slot of a byte and reading
the slot back yields the value (checked over all byte and slot values). -/
theorem bitWriteReadSame :
    ∀ b < 256, ∀ v < 4, ∀ k < 4, (b >>> (2 * k)) &&& 3 = 0 →
      (((b ||| (v <<< (2 * k))) % 256) >>> (2 * k)) &&& 3 = v := by
  decide

set_option maxRecDepth 10000 in
set_option maxHeartbeats 1600000 in
/-- Writing a 2-bit value into one slot of a byte leaves every other
2-bit slot unchanged (checked over all byte and slot values). -/
theorem bitWriteReadOther :
    ∀ b < 256, ∀ v < 4, ∀ k < 4, ∀ j < 4, k ≠ j →
      (((b ||| (v <<< (2 * k))) % 256) >>> (2 * j)) &&& 3 =
        (b >>> (2 * j)) &&& 3 := by
  decide

/-- readBits in byte/slot form: byte index p/4, slot p%4. -/
theorem readBits_eq (bytes : List Nat) (p : Nat) :
    readBits bytes p = (bytes.getD (p / 4) 0 >>> (2 * (p % 4))) &&& 3 := by
  unfold readBits
  have h1 : p * 2 / 8 = p / 4 := by omega
  have h2 : p * 2 % 8 = 2 * (p % 4) := by omega
  rw [h1, h2]

/-- The 2-bit code of an item is below 4. -/
theorem codeOf_lt (S₁ S₂ : Finset Nat) (it : Item) : codeOf S₁ S₂ it < 4 := by
  unfold codeOf
  split
  · omega
  · split <;> omega

/-- The buffer cell update performed by the packing loop for position
idx, as written in the source. -/
def writeCell (bytes : List Nat) (idx v : Nat) : List Nat :=
  bytes.set (idx * 2 / 8) ((bytes.getD (idx * 2 / 8) 0 ||| (v <<< (idx * 2 % 8))) % 256)

/-- A cell write keeps every byte below 256. -/
theorem writeCell_bound (bytes : List Nat) (idx v : Nat)
    (hb : ∀ b ∈ bytes, b < 256) : ∀ b ∈ writeCell bytes idx v, b < 256 := by
  intro b hmem
  rcases List.mem_or_eq_of_mem_set hmem with h | h
  · exact hb b h
  · rw [h]; exact Nat.mod_lt _ (by omega)

/-- A cell write does not change the buffer length. -/
theorem writeCell_length (bytes : List Nat) (idx v : Nat) :
    (writeCell bytes idx v).length = bytes.length := by
  unfold writeCell; rw [List.length_set]

/-- Reading any other position is unchanged by a cell write. -/
theorem writeCell_read_other (bytes : List Nat) (idx v q : Nat) (hv : v < 4)
    (hb : ∀ b ∈ bytes, b < 256) (hq : q ≠ idx) :
    readBits (writeCell bytes idx v) q = readBits bytes q := by
  unfold writeCell
  rw [readBits_eq, readBits_eq]
  have hj : idx * 2 / 8 = idx / 4 := by omega
  have hoff : idx * 2 % 8 = 2 * (idx % 4) := by omega
  rw [hj, hoff]
  by_cases hbyte : q / 4 = idx / 4
  · rw [hbyte]
    by_cases hlen : idx / 4 < bytes.length
    · have hget : (bytes.set (idx / 4)
          ((bytes.getD (idx / 4) 0 ||| (v <<< (2 * (idx % 4)))) % 256)).getD
            (idx / 4) 0 =
          (bytes.getD (idx / 4) 0 ||| (v <<< (2 * (idx % 4)))) % 256 := by
        rw [List.getD_eq_getElem?_getD, List.getElem?_set_eq_of_lt _ hlen]
        rfl
      rw [hget]
      have hbbound : bytes.getD (idx / 4) 0 < 256 := by
        rw [List.getD_eq_getElem?_getD]
        have : bytes[idx / 4]? = some bytes[idx / 4] := List.getElem?_eq_getElem hlen
        rw [this]
        exact hb _ (List.getElem_mem hlen)
      have hslot : idx % 4 ≠ q % 4 := by omega
      exact bitWriteReadOther _ hbbound _ hv _ (by omega) _ (by omega) hslot
    · rw [List.set_eq_of_length_le (by omega)]
  · have hget : (bytes.set (idx / 4)
        ((bytes.getD (idx / 4) 0 ||| (v <<< (2 * (idx % 4)))) % 256)).getD
          (q / 4) 0 = bytes.getD (q / 4) 0 := by
      rw [List.getD_eq_getElem?_getD, List.getElem?_set_ne (by omega),
        ← List.getD_eq_getElem?_getD]
    rw [hget]

/-- Reading back the written position after a cell write into a clear
slot yields the written value, provided the byte is inside the buffer. -/
theorem writeCell_read_same (bytes : List Nat) (idx v : Nat) (hv : v < 4)
    (hb : ∀ b ∈ bytes, b < 256) (hz : readBits bytes idx = 0)
    (hlen : idx * 2 / 8 < bytes.length) :
    readBits (writeCell bytes idx v) idx = v := by
  unfold writeCell
  rw [readBits_eq]
  have hj : idx * 2 / 8 = idx / 4 := by omega
  have hoff : idx * 2 % 8 = 2 * (idx % 4) := by omega
  rw [hj] at hlen
  rw [hj, hoff]
  have hget : (bytes.set (idx / 4)
      ((bytes.getD (idx / 4) 0 ||| (v <<< (2 * (idx % 4)))) % 256)).getD
        (idx / 4) 0 =
      (bytes.getD (idx / 4) 0 ||| (v <<< (2 * (idx % 4)))) % 256 := by
    rw [List.getD_eq_getElem?_getD, List.getElem?_set_eq_of_lt _ hlen]
    rfl
  rw [hget]
  have hbbound : bytes.getD (idx / 4) 0 < 256 := by
    rw [List.getD_eq_getElem?_getD]
    have : bytes[idx / 4]? = some bytes[idx / 4] := List.getElem?_eq_getElem hlen
    rw [this]
    exact hb _ (List.getElem_mem hlen)
  have hz2 : (bytes.getD (idx / 4) 0 >>> (2 * (idx % 4))) &&& 3 = 0 := by
    rw [readBits_eq] at hz
    exact hz
  exact bitWriteReadSame _ hbbound _ hv _ (by omega) hz2

end StorageManager

namespace StorageManager

/-- The cons unfolding of the packing loop, with the cell update named. -/
theorem packFrom_cons (T : Nat) (S₁ S₂ : Finset Nat) (item : Item)
    (rest : List Item) (idx : Nat) (bytes : List Nat) :
    packFrom T S₁ S₂ (item :: rest) idx bytes =
      if T ≤ idx then packFrom T S₁ S₂ rest (idx + 1) bytes
      else packFrom T S₁ S₂ rest (idx + 1)
        (writeCell bytes idx (codeOf S₁ S₂ item)) := rfl

/-- Reading any position from the buffer after the packing loop: positions
covered by the loop and below totalCount hold the 2-bit code of their
item; every other position reads as it did before, provided the incoming
buffer has byte values below 256, reads zero at all loop positions, and is
long enough for the in-range writes. -/
theorem packFrom_read (T : Nat) (S₁ S₂ : Finset Nat) :
    ∀ (l : List Item) (idx : Nat) (bytes : List Nat),
      (∀ b ∈ bytes, b < 256) →
      (∀ q, idx ≤ q → readBits bytes q = 0) →
      (∀ q, idx ≤ q → q < idx + l.length → q < T → q * 2 / 8 < bytes.length) →
      ∀ p, readBits (packFrom T S₁ S₂ l idx bytes) p =
        if h : idx ≤ p ∧ p < idx + l.length ∧ p < T then
          codeOf S₁ S₂ (l.get ⟨p - idx, by omega⟩)
        else readBits bytes p := by
  intro l
  induction l with
  | nil =>
      intro idx bytes hb hz hlen p
      rw [dif_neg (by simp; omega)]
      rfl
  | cons item rest ih =>
      intro idx bytes hb hz hlen p
      rw [packFrom_cons]
      by_cases hT : T ≤ idx
      · rw [if_pos hT]
        have hz' : ∀ q, idx + 1 ≤ q → readBits bytes q = 0 :=
          fun q hq => hz q (by omega)
        have hlen' : ∀ q, idx + 1 ≤ q → q < idx + 1 + rest.length → q < T →
            q * 2 / 8 < bytes.length := by
          intro q h1 h2 h3
          exact hlen q (by omega) (by simp only [List.length_cons]; omega) h3
        rw [ih (idx + 1) bytes hb hz' hlen' p]
        rw [dif_neg (by omega), dif_neg (by simp only [List.length_cons]; omega)]
      · rw [if_neg hT]
        have hvlt : codeOf S₁ S₂ item < 4 := codeOf_lt S₁ S₂ item
        have hb' : ∀ b ∈ writeCell bytes idx (codeOf S₁ S₂ item), b < 256 :=
          writeCell_bound bytes idx _ hb
        have hz' : ∀ q, idx + 1 ≤ q →
            readBits (writeCell bytes idx (codeOf S₁ S₂ item)) q = 0 := by
          intro q hq
          rw [writeCell_read_other bytes idx _ q hvlt hb (by omega)]
          exact hz q (by omega)
        have hlen' : ∀ q, idx + 1 ≤ q → q < idx + 1 + rest.length → q < T →
            q * 2 / 8 < (writeCell bytes idx (codeOf S₁ S₂ item)).length := by
          intro q h1 h2 h3
          rw [writeCell_length]
          exact hlen q (by omega) (by simp only [List.length_cons]; omega) h3
        rw [ih (idx + 1) _ hb' hz' hlen' p]
        by_cases hpidx : p = idx
        · subst hpidx
          rw [dif_neg (by omega),
            dif_pos ⟨le_refl p, by simp only [List.length_cons]; omega,
              by omega⟩]
          rw [writeCell_read_same bytes p _ hvlt hb (hz p (le_refl p))
            (hlen p (le_refl p) (by simp only [List.length_cons]; omega)
              (by omega))]
          simp only [Nat.sub_self]
          rfl
        · by_cases hrange : idx + 1 ≤ p ∧ p < idx + 1 + rest.length ∧ p < T
          · rw [dif_pos hrange,
              dif_pos ⟨by omega, by simp only [List.length_cons]; omega,
                hrange.2.2⟩]
            have hidxp : p - idx = (p - (idx + 1)) + 1 := by omega
            congr 1
            · simp only [hidxp]
              rfl
          · rw [dif_neg hrange,
              dif_neg (by simp only [List.length_cons]; omega)]
            exact writeCell_read_other bytes idx _ p hvlt hb hpidx

end StorageManager

namespace StorageManager

/-- Reading position p back from the buffer built by exportCompressed
yields the 2-bit code of the item at p, for positions inside both the item
list and the configured total. -/
theorem exportBytes_read (T : Nat) (items : List Item) (s : ProgressState)
    (p : Nat) (hp : p < items.length) (hpT : p < T) :
    readBits (exportBytes T items s) p =
      codeOf s.seen.toFinset s.notSeen.toFinset (items.get ⟨p, hp⟩) := by
  unfold exportBytes
  have hz : ∀ q, 0 ≤ q → readBits (List.replicate ((T * 2 + 7) / 8) 0) q = 0 := by
    intro q _
    rw [readBits_eq, List.getD_eq_getElem?_getD, List.getElem?_replicate]
    split <;> simp [Nat.zero_shiftRight, Nat.zero_and]
  have hb : ∀ b ∈ List.replicate ((T * 2 + 7) / 8) 0, b < 256 := by
    intro b hmem
    rw [List.eq_of_mem_replicate hmem]
    omega
  have hlen : ∀ q, 0 ≤ q → q < 0 + items.length → q < T →
      q * 2 / 8 < (List.replicate ((T * 2 + 7) / 8) 0).length := by
    intro q _ _ hqT
    rw [List.length_replicate]
    omega
  rw [packFrom_read T _ _ items 0 _ hb hz hlen p,
    dif_pos ⟨Nat.zero_le p, by omega, hpT⟩]
  simp only [Nat.sub_zero]

/-- The 2-bit code is 1 exactly for ids in the seen set. -/
theorem codeOf_eq_one_iff (S₁ S₂ : Finset Nat) (it : Item) :
    codeOf S₁ S₂ it = 1 ↔ it.id ∈ S₁ := by
  unfold codeOf
  split
  · next h => simp [h]
  · next h =>
      split <;> simp [h]

/-- The 2-bit code is 2 exactly for ids in the notSeen set but not the
seen set. -/
theorem codeOf_eq_two_iff (S₁ S₂ : Finset Nat) (it : Item) :
    codeOf S₁ S₂ it = 2 ↔ it.id ∉ S₁ ∧ it.id ∈ S₂ := by
  unfold codeOf
  split
  · next h => simp [h]
  · next h =>
      split
      · next h2 => simp [h, h2]
      · next h2 => simp [h, h2]

end StorageManager

/-- Claim C1 (amended): for a nonempty Catalog whose configured totalCount
is at least the Catalog length (equal in the intended deployment), and a
State with currentIndex at most N whose seen and notSeen ids all occur in
the Catalog and are disjoint, decoding the encoded State against the same
Catalog and configuration yields a state whose seen and notSeen id sets
are set-equal to the originals and whose history is empty. -/
theorem c1_roundtrip_amended (T : Nat) (items : List Item) (s : ProgressState)
    (hne : items ≠ []) (hT : items.length ≤ T)
    (hidx : s.currentIndex ≤ items.length)
    (hseen : ∀ id ∈ s.seen, id ∈ items.map Item.id)
    (hnot : ∀ id ∈ s.notSeen, id ∈ items.map Item.id)
    (hdisj : s.seen.toFinset ∩ s.notSeen.toFinset = ∅) :
    ∃ st, StorageManager.importCompressed T items
        (StorageManager.exportCompressed T items s) = some st ∧
      st.seen.toFinset = s.seen.toFinset ∧
      st.notSeen.toFinset = s.notSeen.toFinset ∧ st.history = [] := by
  have hTpos : 0 < T := by
    have : items.length ≠ 0 := fun h => hne (List.eq_nil_of_length_eq_zero h)
    omega
  have hbne : StorageManager.exportBytes T items s ≠ [] := by
    have hlen : (StorageManager.exportBytes T items s).length = (T * 2 + 7) / 8 :=
      StorageManager.exportBytes_length T items s
    intro hcon
    rw [hcon] at hlen
    simp at hlen
    omega
  have himp : StorageManager.importCompressed T items
      (StorageManager.exportCompressed T items s) =
      some ⟨s.currentIndex,
        (StorageManager.decodeLists T (StorageManager.exportBytes T items s)
          items 0).1,
        (StorageManager.decodeLists T (StorageManager.exportBytes T items s)
          items 0).2, []⟩ := by
    rw [StorageManager.importCompressed_v2 T items
      ⟨some 2, some s.currentIndex,
        some (StorageManager.exportBytes T items s), none, none⟩ _ rfl
      ⟨rfl, hbne⟩]
    rfl
  refine ⟨_, himp, ?_, ?_, rfl⟩
  · apply Finset.ext
    intro id
    rw [List.mem_toFinset, StorageManager.decodeLists_seen_mem]
    constructor
    · rintro ⟨k, hk, ha, hb, hc⟩
      rw [Nat.zero_add] at ha hb
      rw [StorageManager.exportBytes_read T items s k hk ha,
        StorageManager.codeOf_eq_one_iff] at hb
      rw [← hc]
      exact hb
    · intro hmem
      have hidl : id ∈ items.map Item.id := hseen id (List.mem_toFinset.mp hmem)
      obtain ⟨it, hitmem, hitid⟩ := List.mem_map.mp hidl
      obtain ⟨⟨k, hk⟩, hkeq⟩ := List.mem_iff_get.mp hitmem
      refine ⟨k, hk, by omega, ?_, by rw [hkeq]; exact hitid⟩
      rw [Nat.zero_add, StorageManager.exportBytes_read T items s k hk (by omega),
        StorageManager.codeOf_eq_one_iff, hkeq, hitid]
      exact hmem
  · apply Finset.ext
    intro id
    rw [List.mem_toFinset, StorageManager.decodeLists_notSeen_mem]
    constructor
    · rintro ⟨k, hk, ha, hb, hc⟩
      rw [Nat.zero_add] at ha hb
      rw [StorageManager.exportBytes_read T items s k hk ha,
        StorageManager.codeOf_eq_two_iff] at hb
      rw [← hc]
      exact hb.2
    · intro hmem
      have hidl : id ∈ items.map Item.id := hnot id (List.mem_toFinset.mp hmem)
      obtain ⟨it, hitmem, hitid⟩ := List.mem_map.mp hidl
      obtain ⟨⟨k, hk⟩, hkeq⟩ := List.mem_iff_get.mp hitmem
      have hnotseen : id ∉ s.seen.toFinset := by
        intro hin
        have : id ∈ s.seen.toFinset ∩ s.notSeen.toFinset :=
          Finset.mem_inter.mpr ⟨hin, hmem⟩
        rw [hdisj] at this
        exact absurd this (Finset.not_mem_empty id)
      refine ⟨k, hk, by omega, ?_, by rw [hkeq]; exact hitid⟩
      rw [Nat.zero_add, StorageManager.exportBytes_read T items s k hk (by omega),
        StorageManager.codeOf_eq_two_iff, hkeq, hitid]
      exact ⟨hnotseen, hmem⟩

/-- Witness for the amended C1 at a concrete state and catalog. -/
theorem c1_roundtrip_amended_witness :
    ∃ st, StorageManager.importCompressed 5 [⟨1⟩, ⟨2⟩, ⟨3⟩, ⟨4⟩, ⟨5⟩]
        (StorageManager.exportCompressed 5 [⟨1⟩, ⟨2⟩, ⟨3⟩, ⟨4⟩, ⟨5⟩]
          ⟨3, [2, 4], [1], []⟩) = some st ∧
      st.seen.toFinset = ([2, 4] : List Nat).toFinset ∧
      st.notSeen.toFinset = ([1] : List Nat).toFinset ∧ st.history = [] :=
  c1_roundtrip_amended 5 [⟨1⟩, ⟨2⟩, ⟨3⟩, ⟨4⟩, ⟨5⟩] ⟨3, [2, 4], [1], []⟩
    (by decide) (by decide) (by decide) (by decide) (by decide) (by decide)

/-- Claim C1 (counterexample): against the empty Catalog (N = 0, per the
spec the codec total is the Catalog length) a State with currentIndex 0
and seen = notSeen = [1] encodes to a code that fails to import: the empty
bit payload is falsy, so decode returns the invalid sentinel rather than a
state with the original id sets. -/
theorem c1_roundtrip_counterexample :
    ¬ ∃ st, StorageManager.importCompressed 0 []
        (StorageManager.exportCompressed 0 [] ⟨0, [1], [1], []⟩) = some st ∧
      st.seen.toFinset = ([1] : List Nat).toFinset ∧
      st.notSeen.toFinset = ([1] : List Nat).toFinset := by
  rintro ⟨st, h, _⟩
  have hnone : StorageManager.importCompressed 0 []
      (StorageManager.exportCompressed 0 [] ⟨0, [1], [1], []⟩) = none := by
    decide
  rw [hnone] at h
  cases h

namespace SlidingWindow

/-- The getCurrentItem scan loop returns none exactly when every item of
the scanned suffix is rated. -/
theorem scanFrom_none_iff (c : Cursor) :
    ∀ (l : List Item) (idx : Nat),
      scanFrom c l idx = none ↔ ∀ it ∈ l, isRated c it.id := by
  intro l
  induction l with
  | nil => intro idx; simp [scanFrom]
  | cons item rest ih =>
      intro idx
      unfold scanFrom
      by_cases hr : isRated c item.id
      · rw [if_pos hr, ih (idx + 1)]
        simp [hr]
      · rw [if_neg hr]
        simp [hr]

/-- Positional specification of a successful getCurrentItem scan: the
returned index is at or after the start, the returned item stands at that
index, and every skipped position holds a rated item. -/
theorem scanFrom_some_spec (c : Cursor) :
    ∀ (l : List Item) (idx : Nat) (it : Item) (p : Nat),
      scanFrom c l idx = some (it, p) →
      idx ≤ p ∧ ∃ hk : p - idx < l.length, l.get ⟨p - idx, hk⟩ = it ∧
        ∀ j, idx ≤ j → j < p →
          ∃ hj : j - idx < l.length, isRated c (l.get ⟨j - idx, hj⟩).id := by
  intro l
  induction l with
  | nil => intro idx it p h; cases h
  | cons item rest ih =>
      intro idx it p h
      unfold scanFrom at h
      by_cases hr : isRated c item.id
      · rw [if_pos hr] at h
        obtain ⟨hle, hk, hget, hrated⟩ := ih (idx + 1) it p h
        refine ⟨by omega, ?_⟩
        have hsub : p - idx = (p - (idx + 1)) + 1 := by omega
        refine ⟨by simp only [List.length_cons, hsub]; omega, ?_, ?_⟩
        · simp only [hsub]
          exact hget
        · intro j hj1 hj2
          by_cases hji : j = idx
          · subst hji
            refine ⟨by simp only [List.length_cons]; omega, ?_⟩
            simp only [Nat.sub_self]
            exact hr
          · obtain ⟨hjk, hjr⟩ := hrated j (by omega) hj2
            have hsub2 : j - idx = (j - (idx + 1)) + 1 := by omega
            refine ⟨by simp only [List.length_cons, hsub2]; omega, ?_⟩
            simp only [hsub2]
            exact hjr
      · rw [if_neg hr] at h
        cases h
        refine ⟨le_refl _, ?_⟩
        refine ⟨by simp only [Nat.sub_self, List.length_cons]; omega, ?_, ?_⟩
        · simp only [Nat.sub_self]
          rfl
        · intro j hj1 hj2
          omega

/-- Positional specification of the advance loop: the result is between
the start and the end of the scanned suffix, and every skipped position
holds a rated item. -/
theorem advanceFrom_spec (c : Cursor) :
    ∀ (l : List Item) (idx : Nat),
      idx ≤ advanceFrom c l idx ∧ advanceFrom c l idx ≤ idx + l.length ∧
        ∀ j, idx ≤ j → j < advanceFrom c l idx →
          ∃ hj : j - idx < l.length, isRated c (l.get ⟨j - idx, hj⟩).id := by
  intro l
  induction l with
  | nil =>
      intro idx
      refine ⟨le_refl _, by simp [advanceFrom], ?_⟩
      intro j hj1 hj2
      unfold advanceFrom at hj2
      omega
  | cons item rest ih =>
      intro idx
      unfold advanceFrom
      by_cases hr : isRated c item.id
      · rw [if_pos hr]
        obtain ⟨h1, h2, h3⟩ := ih (idx + 1)
        refine ⟨by omega, by simp only [List.length_cons]; omega, ?_⟩
        intro j hj1 hj2
        by_cases hji : j = idx
        · subst hji
          refine ⟨by simp only [List.length_cons]; omega, ?_⟩
          simp only [Nat.sub_self]
          exact hr
        · obtain ⟨hjk, hjr⟩ := h3 j (by omega) hj2
          have hsub2 : j - idx = (j - (idx + 1)) + 1 := by omega
          refine ⟨by simp only [List.length_cons, hsub2]; omega, ?_⟩
          simp only [hsub2]
          exact hjr
      · rw [if_neg hr]
        refine ⟨le_refl _, by simp only [List.length_cons]; omega, ?_⟩
        intro j hj1 hj2
        omega

end SlidingWindow

namespace SlidingWindow

/-- Indexing into a dropped suffix at a shifted position is indexing into
the whole list. -/
theorem drop_get_eq (items : List Item) (idx j : Nat) (hj1 : idx ≤ j)
    (hj : j - idx < (items.drop idx).length) :
    (items.drop idx).get ⟨j - idx, hj⟩ =
      items.get ⟨j, by rw [List.length_drop] at hj; omega⟩ := by
  simp only [List.get_eq_getElem, List.getElem_drop]
  have h2 : idx + (j - idx) = j := by omega
  simp only [h2]

/-- Under the reachability invariant that all positions before the pointer
are rated, getCurrentItem finds nothing exactly when every item of the
list is rated. -/
theorem getCurrentItem_none_iff (c : Cursor)
    (hidx : c.currentIndex ≤ c.items.length)
    (hpre : ∀ j (hj : j < c.items.length), j < c.currentIndex →
      isRated c (c.items.get ⟨j, hj⟩).id) :
    getCurrentItem c = none ↔ ∀ it ∈ c.items, isRated c it.id := by
  unfold getCurrentItem
  rw [scanFrom_none_iff]
  constructor
  · intro h it hmem
    obtain ⟨⟨j, hj⟩, hget⟩ := List.mem_iff_get.mp hmem
    by_cases hcase : j < c.currentIndex
    · rw [← hget]
      exact hpre j hj hcase
    · have hj2 : j - c.currentIndex < (c.items.drop c.currentIndex).length := by
        rw [List.length_drop]
        omega
      have := h ((c.items.drop c.currentIndex).get ⟨j - c.currentIndex, hj2⟩)
        (List.get_mem _ _ _)
      rw [drop_get_eq c.items c.currentIndex j (by omega) hj2] at this
      rw [← hget]
      exact this
  · intro h it hmem
    exact h it (List.mem_of_mem_drop hmem)

end SlidingWindow

namespace SlidingWindow

/-- Reachability invariant of the cursor during a rating run: the pointer
is inside the list, every position before it is rated, the union of the
rating sets has exactly k ids, all drawn from the item list. -/
structure Reaches (k : Nat) (c : Cursor) : Prop where
  idx_le : c.currentIndex <= c.items.length
  pre_rated : ∀ j (hj : j < c.items.length), j < c.currentIndex →
    isRated c ((c.items.get ⟨j, hj⟩).id)
  card_eq : (c.seenSet ∪ c.notSeenSet).card = k
  sub_ids : ∀ id ∈ c.seenSet ∪ c.notSeenSet, id ∈ c.items.map Item.id

/-- While fewer ids are rated than there are items, some item with unique
ids remains unrated. -/
theorem exists_unrated (k : Nat) (c : Cursor) (inv : Reaches k c)
    (hnodup : (c.items.map Item.id).Nodup) (hk : k < c.items.length) :
    ∃ it ∈ c.items, ¬ isRated c it.id := by
  have hsub : c.seenSet ∪ c.notSeenSet ⊆ (c.items.map Item.id).toFinset := by
    intro id hid
    rw [List.mem_toFinset]
    exact inv.sub_ids id hid
  have hcard : ((c.items.map Item.id).toFinset).card = c.items.length := by
    rw [List.toFinset_card_of_nodup hnodup, List.length_map]
  have hcards := inv.card_eq
  have hne2 : c.seenSet ∪ c.notSeenSet ≠ (c.items.map Item.id).toFinset := by
    intro heq
    rw [heq, hcard] at hcards
    omega
  have hss : c.seenSet ∪ c.notSeenSet ⊂ (c.items.map Item.id).toFinset :=
    Finset.ssubset_iff_subset_ne.mpr ⟨hsub, hne2⟩
  obtain ⟨id, hidmem, hidnot⟩ := Finset.exists_of_ssubset hss
  rw [List.mem_toFinset] at hidmem
  obtain ⟨it, hitmem, hitid⟩ := List.mem_map.mp hidmem
  refine ⟨it, hitmem, ?_⟩
  intro hrated
  apply hidnot
  rw [← hitid]
  rcases hrated with h | h
  · exact Finset.mem_union.mpr (Or.inl h)
  · exact Finset.mem_union.mpr (Or.inr h)

/-- Once every item id is rated, every item of the list is rated. -/
theorem all_rated_of_card (c : Cursor) (inv : Reaches c.items.length c)
    (hnodup : (c.items.map Item.id).Nodup) :
    ∀ it ∈ c.items, isRated c it.id := by
  have hsub : c.seenSet ∪ c.notSeenSet ⊆ (c.items.map Item.id).toFinset := by
    intro id hid
    rw [List.mem_toFinset]
    exact inv.sub_ids id hid
  have hcard : ((c.items.map Item.id).toFinset).card = c.items.length := by
    rw [List.toFinset_card_of_nodup hnodup, List.length_map]
  have heq : c.seenSet ∪ c.notSeenSet = (c.items.map Item.id).toFinset := by
    apply Finset.eq_of_subset_of_card_le hsub
    rw [hcard, inv.card_eq]
  intro it hitmem
  have : it.id ∈ c.seenSet ∪ c.notSeenSet := by
    rw [heq, List.mem_toFinset]
    exact List.mem_map.mpr ⟨it, hitmem, rfl⟩
  rcases Finset.mem_union.mp this with h | h
  · exact Or.inl h
  · exact Or.inr h

end SlidingWindow

namespace SlidingWindow

/-- isRated depends only on the two rating sets. -/
theorem isRated_iff_of_sets (a b : Cursor) (h1 : a.seenSet = b.seenSet)
    (h2 : a.notSeenSet = b.notSeenSet) (id : Nat) :
    isRated a id ↔ isRated b id := by
  unfold isRated
  rw [h1, h2]

/-- Invariant step for a successful rating: the cursor after inserting the
current item id into a rating set and advancing satisfies the invariant for
one more rated id. -/
theorem step_invariant (k : Nat) (c cA x : Cursor) (it0 : Item) (p : Nat)
    (inv : Reaches k c)
    (hcur : getCurrentItem c = some (it0, p))
    (hitems : cA.items = c.items)
    (hsets : cA.seenSet ∪ cA.notSeenSet =
      insert it0.id (c.seenSet ∪ c.notSeenSet))
    (hriff : ∀ id, isRated cA id ↔ id = it0.id ∨ isRated c id)
    (hx1 : x.seenSet = cA.seenSet) (hx2 : x.notSeenSet = cA.notSeenSet)
    (hidxA : cA.currentIndex =
      advanceFrom x (c.items.drop (c.currentIndex + 1)) (c.currentIndex + 1)) :
    Reaches (k + 1) cA := by
  have hur := getCurrentItem_unrated c it0 p hcur
  obtain ⟨hcp, hkd, hgetd, hskip⟩ := scanFrom_some_spec c _ _ it0 p hcur
  have hplen : p < c.items.length := by
    have := hkd
    rw [List.length_drop] at this
    omega
  have hget2 : c.items.get ⟨p, hplen⟩ = it0 := by
    rw [← drop_get_eq c.items c.currentIndex p hcp hkd]
    exact hgetd
  obtain ⟨ha1, ha2, ha3⟩ :=
    advanceFrom_spec x (c.items.drop (c.currentIndex + 1)) (c.currentIndex + 1)
  have hcurlen : c.currentIndex < c.items.length := by omega
  refine ⟨?_, ?_, ?_, ?_⟩
  · rw [hidxA, hitems]
    rw [List.length_drop] at ha2
    omega
  · intro j hj hjlt
    rw [hidxA] at hjlt
    have hj' : j < c.items.length := by rw [← hitems]; exact hj
    have hgetA : (cA.items.get ⟨j, hj⟩) = c.items.get ⟨j, hj'⟩ := by
      revert hj
      rw [hitems]
      intro hj
      rfl
    rw [hgetA]
    by_cases hjc : j < c.currentIndex
    · exact (hriff _).mpr (Or.inr (inv.pre_rated j hj' hjc))
    · by_cases hjp : j = p
      · apply (hriff _).mpr
        left
        rw [← hget2]
        have : (⟨j, hj'⟩ : Fin c.items.length) = ⟨p, hplen⟩ := by
          apply Fin.ext
          exact hjp
        rw [this]
      · by_cases hje : j = c.currentIndex
        · obtain ⟨hjk, hjr⟩ := hskip j (by omega) (by omega)
          rw [drop_get_eq c.items c.currentIndex j (by omega) hjk] at hjr
          exact (hriff _).mpr (Or.inr hjr)
        · have hjge : c.currentIndex + 1 ≤ j := by omega
          obtain ⟨hjk, hjr⟩ := ha3 j hjge hjlt
          rw [drop_get_eq c.items (c.currentIndex + 1) j hjge hjk] at hjr
          rw [isRated_iff_of_sets x cA hx1 hx2] at hjr
          exact hjr
  · rw [hsets]
    rw [Finset.card_insert_of_not_mem, inv.card_eq]
    intro hmem
    rcases Finset.mem_union.mp hmem with h | h
    · exact hur (Or.inl h)
    · exact hur (Or.inr h)
  · intro id hid
    rw [hsets] at hid
    rw [hitems]
    rcases Finset.mem_insert.mp hid with h | h
    · subst h
      refine List.mem_map.mpr ⟨it0, ?_, rfl⟩
      rw [← hget2]
      exact List.get_mem _ _ _
    · exact inv.sub_ids id h

end SlidingWindow

namespace SlidingWindow

/-- markSeen on a resolved current item. -/
theorem markSeen_some (c : Cursor) (it0 : Item) (p : Nat)
    (hcur : getCurrentItem c = some (it0, p)) :
    markSeen c = (true, advanceToNext (trimHistory { c with
      seenSet := insert it0.id c.seenSet,
      history := c.history ++ [{ id := it0.id, action := ActionKind.seen }] })) := by
  unfold markSeen
  rw [hcur]

/-- markNotSeen on a resolved current item. -/
theorem markNotSeen_some (c : Cursor) (it0 : Item) (p : Nat)
    (hcur : getCurrentItem c = some (it0, p)) :
    markNotSeen c = (true, advanceToNext (trimHistory { c with
      notSeenSet := insert it0.id c.notSeenSet,
      history :=
        c.history ++ [{ id := it0.id, action := ActionKind.notSeen }] })) := by
  unfold markNotSeen
  rw [hcur]

/-- markSeen with no current item fails and leaves the cursor untouched. -/
theorem markSeen_none (c : Cursor) (hcur : getCurrentItem c = none) :
    markSeen c = (false, c) := by
  unfold markSeen
  rw [hcur]

/-- markNotSeen with no current item fails and leaves the cursor
untouched. -/
theorem markNotSeen_none (c : Cursor) (hcur : getCurrentItem c = none) :
    markNotSeen c = (false, c) := by
  unfold markNotSeen
  rw [hcur]

/-- advanceToNext raw pointer computation. -/
theorem advanceToNext_currentIndex (c : Cursor) :
    (advanceToNext c).currentIndex =
      advanceFrom c (c.items.drop (c.currentIndex + 1)) (c.currentIndex + 1) :=
  rfl

/-- A successful markSeen keeps the invariant with one more rated id. -/
theorem markSeen_step (k : Nat) (c : Cursor) (inv : Reaches k c)
    (hnodup : (c.items.map Item.id).Nodup) (hk : k < c.items.length) :
    (markSeen c).1 = true ∧ Reaches (k + 1) (markSeen c).2 ∧
      (markSeen c).2.items = c.items := by
  cases hcur : getCurrentItem c with
  | none =>
      exfalso
      obtain ⟨it, hitmem, hitur⟩ := exists_unrated k c inv hnodup hk
      exact hitur (((getCurrentItem_none_iff c inv.idx_le inv.pre_rated).mp hcur)
        it hitmem)
  | some pr =>
      obtain ⟨it0, p⟩ := pr
      rw [markSeen_some c it0 p hcur]
      have hitems : (advanceToNext (trimHistory { c with
          seenSet := insert it0.id c.seenSet,
          history := c.history ++
            [{ id := it0.id, action := ActionKind.seen }] })).items = c.items := by
        rw [advanceToNext_items, trimHistory_items]
      refine ⟨rfl, ?_, hitems⟩
      apply step_invariant k c _ (trimHistory { c with
          seenSet := insert it0.id c.seenSet,
          history := c.history ++
            [{ id := it0.id, action := ActionKind.seen }] }) it0 p inv hcur hitems
      · rw [advanceToNext_seenSet, advanceToNext_notSeenSet, trimHistory_seenSet,
          trimHistory_notSeenSet]
        exact Finset.insert_union it0.id c.seenSet c.notSeenSet
      · intro id
        unfold isRated
        rw [advanceToNext_seenSet, advanceToNext_notSeenSet, trimHistory_seenSet,
          trimHistory_notSeenSet]
        show id ∈ insert it0.id c.seenSet ∨ id ∈ c.notSeenSet ↔ _
        rw [Finset.mem_insert]
        tauto
      · rw [advanceToNext_seenSet]
      · rw [advanceToNext_notSeenSet]
      · rw [advanceToNext_currentIndex, trimHistory_items, trimHistory_currentIndex]

/-- A successful markNotSeen keeps the invariant with one more rated id. -/
theorem markNotSeen_step (k : Nat) (c : Cursor) (inv : Reaches k c)
    (hnodup : (c.items.map Item.id).Nodup) (hk : k < c.items.length) :
    (markNotSeen c).1 = true ∧ Reaches (k + 1) (markNotSeen c).2 ∧
      (markNotSeen c).2.items = c.items := by
  cases hcur : getCurrentItem c with
  | none =>
      exfalso
      obtain ⟨it, hitmem, hitur⟩ := exists_unrated k c inv hnodup hk
      exact hitur (((getCurrentItem_none_iff c inv.idx_le inv.pre_rated).mp hcur)
        it hitmem)
  | some pr =>
      obtain ⟨it0, p⟩ := pr
      rw [markNotSeen_some c it0 p hcur]
      have hitems : (advanceToNext (trimHistory { c with
          notSeenSet := insert it0.id c.notSeenSet,
          history := c.history ++
            [{ id := it0.id, action := ActionKind.notSeen }] })).items = c.items := by
        rw [advanceToNext_items, trimHistory_items]
      refine ⟨rfl, ?_, hitems⟩
      apply step_invariant k c _ (trimHistory { c with
          notSeenSet := insert it0.id c.notSeenSet,
          history := c.history ++
            [{ id := it0.id, action := ActionKind.notSeen }] }) it0 p inv hcur hitems
      · rw [advanceToNext_seenSet, advanceToNext_notSeenSet, trimHistory_seenSet,
          trimHistory_notSeenSet]
        show c.seenSet ∪ insert it0.id c.notSeenSet = _
        rw [Finset.union_insert]
      · intro id
        unfold isRated
        rw [advanceToNext_seenSet, advanceToNext_notSeenSet, trimHistory_seenSet,
          trimHistory_notSeenSet]
        show id ∈ c.seenSet ∨ id ∈ insert it0.id c.notSeenSet ↔ _
        rw [Finset.mem_insert]
        tauto
      · rw [advanceToNext_seenSet]
      · rw [advanceToNext_notSeenSet]
      · rw [advanceToNext_currentIndex, trimHistory_items, trimHistory_currentIndex]

end SlidingWindow

/-- One rating choice: true for markSeen, false for markNotSeen. -/
def markOf (b : Bool) (c : SlidingWindow.Cursor) : Bool × SlidingWindow.Cursor :=
  if b then SlidingWindow.markSeen c else SlidingWindow.markNotSeen c

/-- Run a sequence of rating choices. -/
def runMarks (choices : List Bool) (c : SlidingWindow.Cursor) :
    SlidingWindow.Cursor :=
  choices.foldl (fun c b => (markOf b c).2) c

/-- markOf combines the two step lemmas. -/
theorem markOf_step (b : Bool) (k : Nat) (c : SlidingWindow.Cursor)
    (inv : SlidingWindow.Reaches k c)
    (hnodup : (c.items.map Item.id).Nodup) (hk : k < c.items.length) :
    (markOf b c).1 = true ∧ SlidingWindow.Reaches (k + 1) (markOf b c).2 ∧
      (markOf b c).2.items = c.items := by
  cases b with
  | true => exact SlidingWindow.markSeen_step k c inv hnodup hk
  | false => exact SlidingWindow.markNotSeen_step k c inv hnodup hk

namespace SlidingWindow

/-- The advance loop does not move when both rating sets are empty. -/
theorem advanceFrom_empty (c : Cursor) (hs : c.seenSet = ∅)
    (hn : c.notSeenSet = ∅) : ∀ (l : List Item) (idx : Nat),
      advanceFrom c l idx = idx := by
  intro l idx
  cases l with
  | nil => rfl
  | cons item rest =>
      unfold advanceFrom
      rw [if_neg]
      intro hr
      rcases hr with h | h
      · rw [hs] at h
        exact absurd h (Finset.not_mem_empty _)
      · rw [hn] at h
        exact absurd h (Finset.not_mem_empty _)

/-- init from the empty state satisfies the invariant with zero rated
ids and stores the item list. -/
theorem init_empty_reaches (cfg : Config) (items : List Item) :
    Reaches 0 (init cfg items ⟨0, [], [], []⟩) ∧
      (init cfg items ⟨0, [], [], []⟩).items = items := by
  have hidx : (init cfg items ⟨0, [], [], []⟩).currentIndex = 0 := by
    show advanceFrom _ (items.drop 0) 0 = 0
    exact advanceFrom_empty _ rfl rfl _ _
  have hitems : (init cfg items ⟨0, [], [], []⟩).items = items := rfl
  refine ⟨⟨?_, ?_, ?_, ?_⟩, hitems⟩
  · rw [hidx]
    omega
  · intro j hj hjlt
    rw [hidx] at hjlt
    omega
  · show ((∅ : Finset Nat) ∪ ∅).card = 0
    simp
  · intro id hid
    show id ∈ items.map Item.id
    have : id ∈ ((∅ : Finset Nat) ∪ ∅) := hid
    simp at this

/-- The cursor is not complete while an item remains unrated. -/
theorem isComplete_false_of (k : Nat) (c : Cursor) (inv : Reaches k c)
    (hnodup : (c.items.map Item.id).Nodup) (hk : k < c.items.length) :
    isComplete c = false := by
  cases hcur : getCurrentItem c with
  | none =>
      exfalso
      obtain ⟨it, hitmem, hitur⟩ := exists_unrated k c inv hnodup hk
      exact hitur (((getCurrentItem_none_iff c inv.idx_le inv.pre_rated).mp hcur)
        it hitmem)
  | some pr =>
      unfold isComplete
      rw [hcur]
      rfl

/-- The cursor finds no current item once every id is rated. -/
theorem getCurrentItem_none_of_all (c : Cursor)
    (inv : Reaches c.items.length c)
    (hnodup : (c.items.map Item.id).Nodup) :
    getCurrentItem c = none :=
  (getCurrentItem_none_iff c inv.idx_le inv.pre_rated).mpr
    (all_rated_of_card c inv hnodup)

/-- The cursor is complete once every id is rated. -/
theorem isComplete_true_of (c : Cursor) (inv : Reaches c.items.length c)
    (hnodup : (c.items.map Item.id).Nodup) :
    isComplete c = true := by
  unfold isComplete
  rw [getCurrentItem_none_of_all c inv hnodup]
  rfl

end SlidingWindow

/-- Claim C3: on a nonempty catalog with unique ids, starting from the
empty state, any sequence of N markSeen/markNotSeen choices succeeds call
by call; isComplete is false initially and after each of the first N-1
ratings, becomes true exactly at the Nth, and every further markSeen or
markNotSeen call returns false and leaves the whole cursor (rating sets,
history and position pointer) unchanged. -/
theorem c3_completion_exactly_once (cfg : Config) (items : List Item)
    (hne : items ≠ []) (hnodup : (items.map Item.id).Nodup)
    (choices : List Bool) (hlen : choices.length = items.length) :
    SlidingWindow.isComplete
        (SlidingWindow.init cfg items ⟨0, [], [], []⟩) = false ∧
    (∀ k (hk : k < choices.length),
      (markOf (choices.get ⟨k, hk⟩) (runMarks (choices.take k)
        (SlidingWindow.init cfg items ⟨0, [], [], []⟩))).1 = true) ∧
    (∀ k, k < choices.length → k + 1 < items.length →
      SlidingWindow.isComplete (runMarks (choices.take (k + 1))
        (SlidingWindow.init cfg items ⟨0, [], [], []⟩)) = false) ∧
    (∀ k, k < choices.length → k + 1 = items.length →
      SlidingWindow.isComplete (runMarks (choices.take (k + 1))
        (SlidingWindow.init cfg items ⟨0, [], [], []⟩)) = true) ∧
    (∀ b, markOf b (runMarks choices
        (SlidingWindow.init cfg items ⟨0, [], [], []⟩)) =
      (false, runMarks choices (SlidingWindow.init cfg items ⟨0, [], [], []⟩))) := by
  obtain ⟨hbase, hbitems⟩ := SlidingWindow.init_empty_reaches cfg items
  have hNpos : 0 < items.length := by
    cases items with
    | nil => exact absurd rfl hne
    | cons it rest => simp
  have hinv : ∀ k, k ≤ choices.length →
      SlidingWindow.Reaches k (runMarks (choices.take k)
        (SlidingWindow.init cfg items ⟨0, [], [], []⟩)) ∧
      (runMarks (choices.take k)
        (SlidingWindow.init cfg items ⟨0, [], [], []⟩)).items = items := by
    intro k
    induction k with
    | zero => intro _; exact ⟨hbase, hbitems⟩
    | succ k ih =>
        intro hk1
        have hk : k < choices.length := by omega
        obtain ⟨invk, itemsk⟩ := ih (by omega)
        have htake : choices.take (k + 1) =
            choices.take k ++ [choices.get ⟨k, hk⟩] := by
          rw [List.take_succ]
          congr 1
          rw [List.getElem?_eq_getElem hk]
          rfl
        have hrun : runMarks (choices.take (k + 1))
              (SlidingWindow.init cfg items ⟨0, [], [], []⟩) =
            (markOf (choices.get ⟨k, hk⟩) (runMarks (choices.take k)
              (SlidingWindow.init cfg items ⟨0, [], [], []⟩))).2 := by
          rw [htake]
          unfold runMarks
          rw [List.foldl_append]
          rfl
        obtain ⟨_, hstep, hitems2⟩ := markOf_step (choices.get ⟨k, hk⟩) k _ invk
          (by rw [itemsk]; exact hnodup) (by rw [itemsk]; omega)
        rw [hrun]
        exact ⟨hstep, by rw [hitems2, itemsk]⟩
  refine ⟨?_, ?_, ?_, ?_, ?_⟩
  · exact SlidingWindow.isComplete_false_of 0 _ hbase
      (by rw [hbitems]; exact hnodup) (by rw [hbitems]; omega)
  · intro k hk
    obtain ⟨invk, itemsk⟩ := hinv k (by omega)
    exact (markOf_step (choices.get ⟨k, hk⟩) k _ invk
      (by rw [itemsk]; exact hnodup) (by rw [itemsk]; omega)).1
  · intro k hk hkN
    obtain ⟨invk1, itemsk1⟩ := hinv (k + 1) (by omega)
    exact SlidingWindow.isComplete_false_of (k + 1) _ invk1
      (by rw [itemsk1]; exact hnodup) (by rw [itemsk1]; omega)
  · intro k hk hkN
    obtain ⟨invk1, itemsk1⟩ := hinv (k + 1) (by omega)
    have heq : k + 1 = (runMarks (choices.take (k + 1))
        (SlidingWindow.init cfg items ⟨0, [], [], []⟩)).items.length := by
      rw [itemsk1, ← hkN]
    exact SlidingWindow.isComplete_true_of _ (heq ▸ invk1)
      (by rw [itemsk1]; exact hnodup)
  · intro b
    have hall : choices.take choices.length = choices := List.take_length choices
    obtain ⟨invN, itemsN⟩ := hinv choices.length (le_refl _)
    rw [hall] at invN itemsN
    have heq : choices.length = (runMarks choices
        (SlidingWindow.init cfg items ⟨0, [], [], []⟩)).items.length := by
      rw [itemsN, ← hlen]
    have hnone : SlidingWindow.getCurrentItem (runMarks choices
        (SlidingWindow.init cfg items ⟨0, [], [], []⟩)) = none :=
      SlidingWindow.getCurrentItem_none_of_all _ (heq ▸ invN)
        (by rw [itemsN]; exact hnodup)
    cases b with
    | true => exact SlidingWindow.markSeen_none _ hnone
    | false => exact SlidingWindow.markNotSeen_none _ hnone

/-- Witness for C3 on a concrete two-item catalog and choice sequence. -/
theorem c3_completion_exactly_once_witness :
    SlidingWindow.isComplete
        (SlidingWindow.init defaultConfig [⟨1⟩, ⟨2⟩] ⟨0, [], [], []⟩) = false ∧
    (∀ k (hk : k < ([true, false] : List Bool).length),
      (markOf (([true, false] : List Bool).get ⟨k, hk⟩)
        (runMarks (([true, false] : List Bool).take k)
          (SlidingWindow.init defaultConfig [⟨1⟩, ⟨2⟩] ⟨0, [], [], []⟩))).1 = true) ∧
    (∀ k, k < ([true, false] : List Bool).length →
        k + 1 < ([⟨1⟩, ⟨2⟩] : List Item).length →
      SlidingWindow.isComplete (runMarks (([true, false] : List Bool).take (k + 1))
        (SlidingWindow.init defaultConfig [⟨1⟩, ⟨2⟩] ⟨0, [], [], []⟩)) = false) ∧
    (∀ k, k < ([true, false] : List Bool).length →
        k + 1 = ([⟨1⟩, ⟨2⟩] : List Item).length →
      SlidingWindow.isComplete (runMarks (([true, false] : List Bool).take (k + 1))
        (SlidingWindow.init defaultConfig [⟨1⟩, ⟨2⟩] ⟨0, [], [], []⟩)) = true) ∧
    (∀ b, markOf b (runMarks [true, false]
        (SlidingWindow.init defaultConfig [⟨1⟩, ⟨2⟩] ⟨0, [], [], []⟩)) =
      (false, runMarks [true, false]
        (SlidingWindow.init defaultConfig [⟨1⟩, ⟨2⟩] ⟨0, [], [], []⟩))) :=
  c3_completion_exactly_once defaultConfig [⟨1⟩, ⟨2⟩] (by decide) (by decide)
    [true, false] (by decide)
